import Mathlib

/-!
The Watcher of `lookinmedia/ping-server` (`src/watcher.go`)

A shallow embedding of the version watcher: the pagination resolver `lastPage`, the
listing parser `parsingServersList`, the refresh cycle `update`, the lookup
`VersionByServer` and its substring scan `findByContains`.

Modelling conventions.

* A Go `string` is its sequence of bytes (`GoString`); the three locale markers are the
  UTF-8 encodings of the literals of the source.
* `strings.Index`, `strings.Contains` and `strings.Split` (non-empty separator) are
  modelled concretely.
* The outside world is an `Env`: the responses of the remote site (indexed by the number of
  requests already made, so that the site may change over time), the library functions
  `strconv.Atoi`, `semver.IsValid`, `version.NewVersion`, and the order in which the Go
  runtime enumerates a map in a `range` loop (any permutation of its entries, possibly a
  different one at every loop).  Every theorem quantifies over all environments.
* Stateful code is explicit state passing over `State`: the watcher's map, the log of the
  URLs requested so far and the number of `range` loops started so far.
* A goquery document is reduced to what the two selector chains of the source read from it:
  for each `.servers-list .server` node the pair (host text, status text), in document
  order, and the texts of the `.pagination li a` nodes, in document order.
* The mutex only delimits critical sections; an operation is modelled as running alone.
  `log.Printf` calls are not modelled.
* `Watcher.run` is a transition system (`Loop`, `Event`, `Loop.step`) whose fetch steps are
  the calls of `lastPage` and the page steps of `update`; the cancellation signal and the
  ticks of the ticker are steps of the environment.
* Definitions whose comment starts with "Specification" (`upsert`, `refreshSpec`,
  `accepted`, `parseSpec`) state what the operations are compared with.
-/

namespace PingServer

/-- A Go string: a sequence of bytes. -/
abbrev GoString := List UInt8

/-- The bytes of a string literal of the source (Go literals are UTF-8). -/
def utf8 (s : String) : GoString := s.data.flatMap String.utf8EncodeChar

namespace Strings

/-- Model of `strings.Index(s, substr)`: the position of the first occurrence of `substr`
in `s`, `none` for Go's `-1`. -/
def Index : GoString → GoString → Option Nat
  | [], substr => if substr.isPrefixOf [] then some 0 else none
  | c :: t, substr =>
    if substr.isPrefixOf (c :: t) then some 0 else (Index t substr).map (· + 1)

/-- Model of `strings.Contains(s, substr)`, which is `Index(s, substr) >= 0`. -/
def Contains (s substr : GoString) : Bool := (Index s substr).isSome

/-- Model of the loop of `strings.genSplit` for a non-empty separator: cut at the first
occurrence of `sep`, continue after it; the first argument bounds the number of cuts. -/
def genSplit (sep : GoString) : Nat → GoString → List GoString
  | 0, s => [s]
  | n + 1, s =>
    match Index s sep with
    | none => [s]
    | some m => s.take m :: genSplit sep n (s.drop (m + sep.length))

/-- Model of `strings.Split(s, sep)` for a non-empty `sep` (the only use in the source):
the pieces of `s` between the non-overlapping occurrences of `sep`, found left to right.
A string of length `n` has at most `n` such occurrences. -/
def Split (s sep : GoString) : List GoString := genSplit sep s.length s

end Strings

/-- Status marker `"онлайн"` (watcher.go:143). -/
def online : GoString := utf8 "онлайн"

/-- Status marker `"оффлайн"` (watcher.go:144). -/
def offline : GoString := utf8 "оффлайн"

/-- Version marker `"версия"` (watcher.go:148). -/
def versiya : GoString := utf8 "версия"

/-- The errors the watcher produces, one constructor per site of the source. -/
inductive Error where
  /-- `http.Get` returned an error -/
  | transport
  /-- `"status code error: %d %s"` -/
  | statusCode (code : Int)
  /-- `goquery.NewDocumentFromReader` returned an error -/
  | document
  /-- `"field version not found for server %s"` -/
  | fieldVersionNotFound (server : GoString)
  /-- `"invalid semver format got version %s"` -/
  | invalidSemver (ver : GoString)
  /-- `"invalid semver format %w got version %s"` -/
  | invalidVersion (ver : GoString)
  /-- `"version not found for host %s"` -/
  | notFoundForHost (host : GoString)
  /-- `"version not found for server %s"` -/
  | notFoundForServer (host : GoString)
  deriving DecidableEq, Repr

/-- The three error classes of the specification. -/
inductive ErrorKind where
  | network
  | parse
  | notFound
  deriving DecidableEq, Repr

/-- The class of an error: fetch failures are network errors, per-entry failures of the
listing parser are parse errors, failed lookups are not-found errors. -/
def Error.kind : Error → ErrorKind
  | .transport => .network
  | .statusCode _ => .network
  | .document => .network
  | .fieldVersionNotFound _ => .parse
  | .invalidSemver _ => .parse
  | .invalidVersion _ => .parse
  | .notFoundForHost _ => .notFound
  | .notFoundForServer _ => .notFound

/-- What the source reads from a goquery document. -/
structure Document where
  /-- for every `.servers-list .server` node, in document order: the text of
  `.info .ip .back-tooltip span` and the text of `.info .block` -/
  servers : List (GoString × GoString)
  /-- the text of every `.pagination li a` node, in document order -/
  pagination : List GoString

/-- An HTTP response: its status code and its body read as a document (`none` when
`goquery.NewDocumentFromReader` fails). -/
structure Response where
  statusCode : Int
  body : Option Document

/-- The Go map `map[string]*version.Version`: a finite map with distinct keys. -/
abbrev GoMap (V : Type) := AList (fun _ : GoString => V)

/-- The world around the watcher; `V` is the type of parsed versions. -/
structure Env (V : Type) where
  /-- the answer to `http.Get(url)` when `n` requests have been made before (`none`: a
  transport error) -/
  respond : Nat → GoString → Option Response
  /-- `strconv.Atoi` (`none`: an error) -/
  atoi : GoString → Option Int
  /-- `semver.IsValid` -/
  semverIsValid : GoString → Bool
  /-- `version.NewVersion` (`none`: an error or a nil version) -/
  newVersion : GoString → Option V
  /-- the order in which the `n`-th `range` loop enumerates the entries of a map -/
  rangeOrder : Nat → List (Sigma fun _ : GoString => V) → List (Sigma fun _ : GoString => V)
  /-- a `range` loop visits every entry exactly once -/
  rangeOrder_perm : ∀ n l, (rangeOrder n l).Perm l

/-- Type `Watcher` of the source (watcher.go:28); the mutex carries no data. -/
structure Watcher (V : Type) where
  verByServer : GoMap V

/-- `newWatcher` (watcher.go:33). -/
def newWatcher {V : Type} : Watcher V := ⟨∅⟩

/-- The state threaded through the operations. -/
structure State (V : Type) where
  watcher : Watcher V
  /-- the URLs requested so far, most recent first -/
  requests : List GoString
  /-- the number of `range` loops started so far -/
  ranges : Nat

/-- The state of a fresh process. -/
def State.init {V : Type} : State V := ⟨newWatcher, [], 0⟩

variable {V : Type}

/-- `http.Get(url)`: the request is logged and answered by the environment. -/
def httpGet (env : Env V) (url : GoString) (st : State V) : Option Response × State V :=
  (env.respond st.requests.length url, { st with requests := url :: st.requests })

/-- Start of a `range` loop over the map `m`: the entries in the order of this loop. -/
def range (env : Env V) (m : GoMap V) (st : State V) :
    List (Sigma fun _ : GoString => V) × State V :=
  (env.rangeOrder st.ranges m.entries, { st with ranges := st.ranges + 1 })

/-- The candidate version string of a status text (watcher.go:143-151); `none` when the
text has neither status marker (the `parsErr` of line 145). -/
def candidate (ver : GoString) : Option GoString :=
  if (Strings.Split ver online).length ≤ 1 then
    if (Strings.Split ver offline).length ≤ 1 then
      none
    else
      some ((Strings.Split ((Strings.Split ver offline).getD 1 []) versiya).getD 0 [])
  else
    some ((Strings.Split ((Strings.Split ver online).getD 1 []) versiya).getD 0 [])

/-- The closure passed to `Each` (watcher.go:139-164), as a step on the pair
(`versionByServer`, `parsErr`); `e` is (host text, status text) of the entry. -/
def eachServer (env : Env V) (acc : GoMap V × Option Error) (e : GoString × GoString) :
    GoMap V × Option Error :=
  match candidate e.2 with
  | none => (acc.1, some (.fieldVersionNotFound e.1))
  | some ver =>
    if !env.semverIsValid (utf8 "v" ++ ver) then
      (acc.1, some (.invalidSemver ver))
    else if e.1 ≠ [] then
      match env.newVersion ver with
      | none => (acc.1, some (.invalidVersion ver))
      | some version => (acc.1.insert e.1 version, acc.2)
    else
      acc

/-- The part of `parsingServersList` after the document is loaded (watcher.go:136-165):
the map and the error it returns. -/
def parseDocument (env : Env V) (doc : Document) : GoMap V × Option Error :=
  doc.servers.foldl (eachServer env) (∅, none)

/-- `parsingServersList` (watcher.go:121); a nil map is the empty map. -/
def parsingServersList (env : Env V) (url : GoString) (st : State V) :
    (GoMap V × Option Error) × State V :=
  match httpGet env url st with
  | (none, st) => ((∅, some .transport), st)
  | (some res, st) =>
    if res.statusCode ≠ 200 then
      ((∅, some (.statusCode res.statusCode)), st)
    else
      match res.body with
      | none => ((∅, some .document), st)
      | some doc => (parseDocument env doc, st)

/-- The `Each` loop of `lastPage` (watcher.go:183-191) over the pagination labels. -/
def scanPagination (env : Env V) (labels : List GoString) : Int :=
  labels.foldl
    (fun lastPage text =>
      match env.atoi text with
      | none => lastPage
      | some page => page)
    (-1)

/-- `lastPage` (watcher.go:168). -/
def lastPage (env : Env V) (url : GoString) (st : State V) : (Int × Option Error) × State V :=
  match httpGet env url st with
  | (none, st) => ((0, some .transport), st)
  | (some res, st) =>
    if res.statusCode ≠ 200 then
      ((-1, some (.statusCode res.statusCode)), st)
    else
      match res.body with
      | none => ((0, some .document), st)
      | some doc => ((scanPagination env doc.pagination, none), st)

/-- The merge loop `for k, v := range verByServ { w.verByServer[k] = v }`
(watcher.go:76-79 and 102-104). -/
def merge (env : Env V) (verByServ : GoMap V) (st : State V) : State V :=
  match range env verByServ st with
  | (es, st) =>
    { st with watcher := ⟨es.foldl (fun m e => m.insert e.1 e.2) st.watcher.verByServer⟩ }

/-- `Watcher.findByContains` (watcher.go:110). -/
def findByContains (env : Env V) (host : GoString) (st : State V) :
    Except Error V × State V :=
  match range env st.watcher.verByServer st with
  | (es, st) =>
    match es.find? (fun e => Strings.Contains e.1 host) with
    | some e => (.ok e.2, st)
    | none => (.error (.notFoundForServer host), st)

/-- The URL of the host-scoped search (watcher.go:67). -/
def searchURL (host : GoString) : GoString :=
  utf8 "https://misterlauncher.org/servers/search/" ++ host

/-- `Watcher.VersionByServer` (watcher.go:60).  The assignment `version = ver` inside the
merge loop is overwritten by the result of `findByContains` before it is read. -/
def VersionByServer (env : Env V) (host : GoString) (st : State V) :
    Except Error V × State V :=
  match st.watcher.verByServer.lookup host with
  | some version => (.ok version, st)
  | none =>
    match parsingServersList env (searchURL host) st with
    | ((_, some err), st) => (.error err, st)
    | ((verByServ, none), st) =>
      if verByServ.entries.length = 0 then
        (.error (.notFoundForHost host), st)
      else
        findByContains env host (merge env verByServ st)

/-- The URL of the pagination root (watcher.go:90). -/
def rootURL : GoString := utf8 "https://misterlauncher.org/servers"

/-- The URL of listing page `i` (watcher.go:95); `strconv.Itoa` is the decimal notation. -/
def pageURL (i : Nat) : GoString :=
  utf8 "https://misterlauncher.org/servers/page/" ++ utf8 (toString i)

/-- The body of the loop of `update` for page `i` (watcher.go:95-105). -/
def updatePage (env : Env V) (st : State V) (i : Nat) : State V :=
  match parsingServersList env (pageURL i) st with
  | ((_, some _), st) => st
  | ((verByServ, none), st) => merge env verByServ st

/-- `Watcher.update` (watcher.go:89): the loop `for i := 1; i <= lastPage; i++` runs over
`1, ..., lastPage`, and over nothing when `lastPage < 1`.  (For `lastPage` equal to the
largest `int` the counter of the Go loop would wrap around after the last page instead of
stopping; the model agrees with the Go loop on every page up to there.) -/
def update (env : Env V) (st : State V) : Option Error × State V :=
  match lastPage env rootURL st with
  | ((_, some err), st) => (some err, st)
  | ((lastPage, none), st) =>
    (none, (List.range' 1 lastPage.toNat).foldl (updatePage env) st)

/-- An operation on the watcher: a refresh cycle or a lookup. -/
inductive Op where
  | update
  | lookup (host : GoString)

/-- The state after one operation. -/
def step (env : Env V) (st : State V) : Op → State V
  | .update => (update env st).2
  | .lookup host => (VersionByServer env host st).2

/-- The state after a sequence of operations. -/
def exec (env : Env V) (st : State V) (ops : List Op) : State V :=
  ops.foldl (step env) st

/-- A version is validated when it is the parse of a candidate string that passed
`semver.IsValid("v" + candidate)`. -/
def Validated (env : Env V) (v : V) : Prop :=
  ∃ c : GoString, env.semverIsValid (utf8 "v" ++ c) = true ∧ env.newVersion c = some v

/-- Every version stored in the map `m` is validated. -/
def CacheValidated (env : Env V) (m : GoMap V) : Prop :=
  ∀ k v, m.lookup k = some v → Validated env v

/-- Decidable check that some suffix `x.drop d` of `x` with `lo ≤ d < x.length` and the
string `y` agree as far as both go (one is a prefix of the other). -/
def overlapsFrom (lo : Nat) (x y : GoString) : Bool :=
  (List.range x.length).any fun d =>
    decide (lo ≤ d) && ((x.drop d).isPrefixOf y || y.isPrefixOf (x.drop d))

/-- What `parsingServersList` returns, as a function of the answer to its request
(watcher.go:122-165). -/
def parseResponse (env : Env V) : Option Response → GoMap V × Option Error
  | none => (∅, some .transport)
  | some res =>
    if res.statusCode ≠ 200 then
      (∅, some (.statusCode res.statusCode))
    else
      match res.body with
      | none => (∅, some .document)
      | some doc => parseDocument env doc

/-- Specification of merge/upsert: insert-or-overwrite of every entry of `m` into `c`. -/
def upsert (c m : GoMap V) : GoMap V :=
  m.entries.foldl (fun c e => c.insert e.1 e.2) c

/-- Specification of a refresh cycle over the listing pages `pages`, the pagination root
having been request number `r` (so that page `i` is request number `r + i`): the cache
upserted, in page order, with the entries of every page that succeeded; a failed page
contributes nothing. -/
def refreshSpec (env : Env V) (r : Nat) (pages : List Nat) (c : GoMap V) : GoMap V :=
  pages.foldl
    (fun c i =>
      match parseResponse env (env.respond (r + i) (pageURL i)) with
      | (m, none) => upsert c m
      | (_, some _) => c)
    c

/-- Specification of the entries the listing parser stores: an entry with a non-empty host
key, a status marker, and a candidate that validates and parses yields (host key, version). -/
def accepted (env : Env V) (e : GoString × GoString) : Option (Sigma fun _ : GoString => V) :=
  if e.1 = [] then none
  else
    match candidate e.2 with
    | none => none
    | some c =>
      if env.semverIsValid (utf8 "v" ++ c) then (env.newVersion c).map fun v => ⟨e.1, v⟩
      else none

/-- Specification of the map of the listing parser: the upsert, in document order, of the
accepted entries. -/
def parseSpec (env : Env V) (doc : Document) : GoMap V :=
  (doc.servers.filterMap (accepted env)).foldl (fun m e => m.insert e.1 e.2) ∅

/-! ## The refresh loop `Watcher.run` as a transition system -/

/-- Control points of `Watcher.run` (watcher.go:41) and of the `update` it calls. -/
inductive Pc where
  /-- in `update`, about to call `lastPage` (watcher.go:90) -/
  | root
  /-- in the loop of `update`, about to fetch page `i`, with `i ≤ last` (watcher.go:95) -/
  | page (i : Nat) (last : Int)
  /-- blocked at the `select` (watcher.go:47) -/
  | select
  /-- `run` has returned (watcher.go:55) -/
  | returned
  deriving DecidableEq, Repr

/-- The state of the refresh loop and of the two channels it selects on. -/
structure Loop (V : Type) where
  st : State V
  pc : Pc
  /-- `ctx.Done()` is closed: the cancellation signal has fired -/
  cancelled : Bool
  /-- the ticker has been created (watcher.go:45) and not stopped (watcher.go:54) -/
  ticker : Bool
  /-- a tick is waiting in `ticker.C` (a channel of capacity one) -/
  tick : Bool

/-- The loop when `run` is entered: the initial `update` is about to start. -/
def Loop.init (st : State V) : Loop V := ⟨st, .root, false, false, false⟩

/-- The steps of the refresh loop and of its environment. -/
inductive Event where
  /-- environment: the cancellation signal fires -/
  | cancel
  /-- environment: the ticker delivers a tick -/
  | tick
  /-- loop: the fetch at the current control point (pagination root or page `i`) is made
  and its result processed -/
  | fetch
  /-- loop: the `select` takes the tick and starts a cycle (watcher.go:48) -/
  | start
  /-- loop: the `select` takes `ctx.Done()`, stops the ticker and returns (watcher.go:53) -/
  | observe
  deriving DecidableEq, Repr

/-- One step; `none` when the event is not enabled.  When `update` returns, with or without
error, the loop reaches the `select`; the ticker exists from the return of the first
`update` on.  At the `select` both cases may be ready, and either may be taken. -/
def Loop.step (env : Env V) (l : Loop V) : Event → Option (Loop V)
  | .cancel => some { l with cancelled := true }
  | .tick => if l.ticker then some { l with tick := true } else none
  | .fetch =>
    match l.pc with
    | .root =>
      match lastPage env rootURL l.st with
      | ((_, some _), st) => some { l with st := st, pc := .select, ticker := true }
      | ((last, none), st) =>
        if 1 ≤ last then some { l with st := st, pc := .page 1 last }
        else some { l with st := st, pc := .select, ticker := true }
    | .page i last =>
      if ((i : Int) + 1) ≤ last then
        some { l with st := updatePage env l.st i, pc := .page (i + 1) last }
      else
        some { l with st := updatePage env l.st i, pc := .select, ticker := true }
    | _ => none
  | .start =>
    if l.pc = .select ∧ l.tick = true then some { l with pc := .root, tick := false } else none
  | .observe =>
    if l.pc = .select ∧ l.cancelled = true then
      some { l with pc := .returned, ticker := false }
    else none

/-- A run: the events in order; `none` when some event is not enabled. -/
def Loop.exec (env : Env V) (l : Loop V) : List Event → Option (Loop V)
  | [] => some l
  | e :: es => (Loop.step env l e).bind fun l => Loop.exec env l es

/-! ## A sample environment, for evaluating the operations on concrete inputs -/

namespace Sample

/-- The value of a non-empty string of ASCII digits. -/
def digits : GoString → Option Nat
  | [] => none
  | s => s.foldl
      (fun acc b => acc.bind fun n => if 48 ≤ b ∧ b ≤ 57 then some (10 * n + (b.toNat - 48)) else none)
      (some 0)

/-- Decimal integers with an optional sign, in the 64-bit range. -/
def atoi (s : GoString) : Option Int :=
  match s with
  | 45 :: t => (digits t).bind fun n => if n ≤ 2 ^ 63 then some (-(n : Int)) else none
  | 43 :: t => (digits t).bind fun n => if n < 2 ^ 63 then some (n : Int) else none
  | _ => (digits s).bind fun n => if n < 2 ^ 63 then some (n : Int) else none

/-- The dot-separated numeric segments of a string. -/
def segments (s : GoString) : Option (List Nat) :=
  (Strings.Split s (utf8 ".")).mapM digits

/-- Accepts `vMAJOR[.MINOR[.PATCH]]` with numbers without leading zeros. -/
def semverIsValid (s : GoString) : Bool :=
  match s with
  | 118 :: t =>
    let segs := Strings.Split t (utf8 ".")
    decide (segs.length ≤ 3) &&
      segs.all fun g => (digits g).isSome && (g.length == 1 || g.head? != some 48)
  | _ => false

/-- An environment in which every URL answers 200 with the document `doc`, and a `range`
loop enumerates a map in the order of its representation. -/
def env (doc : Document) : Env (List Nat) where
  respond := fun _ _ => some ⟨200, some doc⟩
  atoi := atoi
  semverIsValid := semverIsValid
  newVersion := segments
  rangeOrder := fun _ l => l
  rangeOrder_perm := fun _ l => List.Perm.refl l

/-- A state whose cache holds the single entry `play.example.com ↦ 1.2.0`. -/
def cached : State (List Nat) :=
  ⟨⟨(∅ : GoMap (List Nat)).insert (utf8 "play.example.com") [1, 2, 0]⟩, [], 0⟩

/-- A document listing `play.example.com` as online with version 1.2.0. -/
def listing : Document :=
  ⟨[(utf8 "play.example.com", utf8 "онлайн1.2.0версия")], []⟩

/-- A one-page site whose page lists a valid entry followed by an entry with the
unparsable candidate `abc`. -/
def mixed : Document :=
  ⟨[(utf8 "a.example", utf8 "онлайн1.20.1версия"), (utf8 "b.example", utf8 "онлайнabcверсия")],
    [utf8 "1"]⟩

/-- A one-page site whose page lists `b.example` as offline with version 1.8. -/
def other : Document :=
  ⟨[(utf8 "b.example", utf8 "оффлайн1.8версия")], [utf8 "1"]⟩

/-- An environment in which request number `n` answers 200 with the `n`-th document of
`docs`, or fails in transport when that document is `none` or missing. -/
def envSeq (docs : List (Option Document)) : Env (List Nat) where
  respond := fun n _ => (docs.getD n none).map fun doc => ⟨200, some doc⟩
  atoi := atoi
  semverIsValid := semverIsValid
  newVersion := segments
  rangeOrder := fun _ l => l
  rangeOrder_perm := fun _ l => List.Perm.refl l

/-- A site of three pages: the pagination root, page 1 listing `a.example`, page 2 with an
unparsable candidate, page 3 listing `c.example`. -/
def threePages : List (Option Document) :=
  [some ⟨[], [utf8 "1", utf8 "2", utf8 "3"]⟩,
   some ⟨[(utf8 "a.example", utf8 "онлайн1.20.1версия")], []⟩,
   some ⟨[(utf8 "b.example", utf8 "онлайнabcверсия")], []⟩,
   some ⟨[(utf8 "c.example", utf8 "оффлайн1.8версия")], []⟩]

/-- A site of two listing pages that answers every request with the same document. -/
def twoPages : Document :=
  ⟨[(utf8 "a.example", utf8 "онлайн1.20.1версия")], [utf8 "1", utf8 "2"]⟩

/-- A state whose cache holds `a.example ↦ 9` and `z.example ↦ 9`. -/
def stale : State (List Nat) :=
  ⟨⟨((∅ : GoMap (List Nat)).insert (utf8 "a.example") [9]).insert (utf8 "z.example") [9]⟩,
    [], 0⟩

/-- A site whose pagination shows one page: page 1 lists `b.example`; a further request,
which a cycle never makes, would list `z.example` with version 1.0. -/
def onePage : List (Option Document) :=
  [some ⟨[], [utf8 "1"]⟩,
   some ⟨[(utf8 "b.example", utf8 "оффлайн1.8версия")], []⟩,
   some ⟨[(utf8 "z.example", utf8 "онлайн1.0версия")], []⟩]

end Sample


namespace Strings

theorem Index_some {sub : GoString} : ∀ {s : GoString} {m : Nat}, Index s sub = some m →
    m ≤ s.length ∧ sub <+: s.drop m ∧ ∀ i, i < m → ¬ sub <+: s.drop i := by
  intro s
  induction s with
  | nil =>
    intro m h
    simp only [Index] at h
    split at h
    · rename_i hp
      cases h
      refine ⟨Nat.le_refl _, ?_, fun i hi => absurd hi (Nat.not_lt_zero i)⟩
      simpa using List.isPrefixOf_iff_prefix.mp hp
    · cases h
  | cons c t ih =>
    intro m h
    simp only [Index] at h
    split at h
    · rename_i hp
      cases h
      refine ⟨Nat.zero_le _, ?_, fun i hi => absurd hi (Nat.not_lt_zero i)⟩
      simpa using List.isPrefixOf_iff_prefix.mp hp
    · rename_i hp
      cases hi : Index t sub with
      | none => rw [hi] at h; cases h
      | some k =>
        rw [hi] at h
        cases h
        obtain ⟨h1, h2, h3⟩ := ih hi
        refine ⟨by simpa using h1, by simpa using h2, ?_⟩
        intro i hlt
        cases i with
        | zero =>
          intro hc
          exact hp (List.isPrefixOf_iff_prefix.mpr (by simpa using hc))
        | succ j => simpa using h3 j (Nat.lt_of_succ_lt_succ hlt)

theorem Index_none {sub : GoString} : ∀ {s : GoString}, Index s sub = none →
    ∀ i, ¬ sub <+: s.drop i := by
  intro s
  induction s with
  | nil =>
    intro h i
    simp only [Index] at h
    split at h
    · cases h
    · rename_i hp
      intro hc
      exact hp (List.isPrefixOf_iff_prefix.mpr (by simpa using hc))
  | cons c t ih =>
    intro h i
    simp only [Index] at h
    split at h
    · cases h
    · rename_i hp
      cases hi : Index t sub with
      | some k => rw [hi] at h; cases h
      | none =>
        cases i with
        | zero =>
          intro hc
          exact hp (List.isPrefixOf_iff_prefix.mpr (by simpa using hc))
        | succ j => simpa using ih hi j

theorem Index_eq_some {sub s : GoString} {m : Nat}
    (hp : sub <+: s.drop m) (hmin : ∀ i, i < m → ¬ sub <+: s.drop i) :
    Index s sub = some m := by
  cases h : Index s sub with
  | none => exact absurd hp (Index_none h m)
  | some k =>
    obtain ⟨_, h2, h3⟩ := Index_some h
    rcases Nat.lt_trichotomy k m with hlt | heq | hgt
    · exact absurd h2 (hmin k hlt)
    · rw [heq]
    · exact absurd hp (h3 m hgt)

theorem infix_iff_drop {sub s : GoString} : sub <:+: s ↔ ∃ i, sub <+: s.drop i := by
  constructor
  · rintro ⟨a, b, rfl⟩
    refine ⟨a.length, ?_⟩
    simp [List.append_assoc]
  · rintro ⟨i, hp⟩
    exact List.IsInfix.trans hp.isInfix (List.drop_suffix i s).isInfix

theorem Contains_iff {s sub : GoString} : Contains s sub = true ↔ sub <:+: s := by
  rw [infix_iff_drop, Contains]
  constructor
  · intro h
    cases hi : Index s sub with
    | none => rw [hi] at h; cases h
    | some m => exact ⟨m, (Index_some hi).2.1⟩
  · rintro ⟨i, hp⟩
    cases hi : Index s sub with
    | none => exact absurd hp (Index_none hi i)
    | some m => rfl

theorem Contains_eq_false {s sub : GoString} : Contains s sub = false ↔ Index s sub = none := by
  unfold Contains
  cases Index s sub <;> simp

theorem genSplit_ne_nil (sep : GoString) (n : Nat) (s : GoString) : genSplit sep n s ≠ [] := by
  cases n with
  | zero => simp [genSplit]
  | succ k =>
    simp only [genSplit]
    split <;> simp

theorem ne_nil_of_Index_some {s sep : GoString} {m : Nat} (hsep : sep ≠ [])
    (h : Index s sep = some m) : m + sep.length ≤ s.length ∧ 0 < s.length := by
  obtain ⟨h1, h2, _⟩ := Index_some h
  have hl := h2.length_le
  rw [List.length_drop] at hl
  have : 0 < sep.length := List.length_pos.mpr hsep
  omega

theorem Index_nil {sep : GoString} (hsep : sep ≠ []) : Index [] sep = none := by
  cases h : Index [] sep with
  | none => rfl
  | some m => exact absurd (ne_nil_of_Index_some hsep h).2 (by simp)

theorem genSplit_head {sep : GoString} (hsep : sep ≠ []) (n : Nat) (s : GoString)
    (hn : s.length ≤ n) :
    (genSplit sep n s).getD 0 [] = (Index s sep).elim s (fun m => s.take m) := by
  cases n with
  | zero =>
    have : s = [] := List.length_eq_zero.mp (Nat.le_zero.mp hn)
    subst this
    simp [genSplit, Index_nil hsep]
  | succ k =>
    simp only [genSplit]
    cases Index s sep <;> simp

theorem Split_length_le_one {sep : GoString} (hsep : sep ≠ []) (s : GoString) :
    (Split s sep).length ≤ 1 ↔ Index s sep = none := by
  unfold Split
  constructor
  · intro h
    cases hi : Index s sep with
    | none => rfl
    | some m =>
      exfalso
      have hpos := (ne_nil_of_Index_some hsep hi).2
      obtain ⟨k, hk⟩ : ∃ k, s.length = k + 1 := ⟨s.length - 1, by omega⟩
      rw [hk] at h
      simp only [genSplit, hi, List.length_cons] at h
      have := List.length_pos.mpr (genSplit_ne_nil sep k (List.drop (m + sep.length) s))
      omega
  · intro hi
    cases s.length <;> simp [genSplit, hi]

theorem Split_getD_zero {sep : GoString} (hsep : sep ≠ []) (s : GoString) :
    (Split s sep).getD 0 [] = (Index s sep).elim s (fun m => s.take m) :=
  genSplit_head hsep s.length s (Nat.le_refl _)

theorem Split_getD_one {sep : GoString} (hsep : sep ≠ []) {s : GoString} {m : Nat}
    (hi : Index s sep = some m) :
    (Split s sep).getD 1 [] =
      (Index (s.drop (m + sep.length)) sep).elim (s.drop (m + sep.length))
        (fun k => (s.drop (m + sep.length)).take k) := by
  obtain ⟨hle, hpos⟩ := ne_nil_of_Index_some hsep hi
  have hsl : 0 < sep.length := List.length_pos.mpr hsep
  obtain ⟨k, hk⟩ : ∃ k, s.length = k + 1 := ⟨s.length - 1, by omega⟩
  unfold Split
  rw [hk]
  simp only [genSplit, hi]
  have := genSplit_head hsep k (s.drop (m + sep.length)) (by rw [List.length_drop]; omega)
  simpa using this

end Strings

theorem overlapsFrom_false {lo : Nat} {x y : GoString} (h : overlapsFrom lo x y = false)
    {d : Nat} (hlo : lo ≤ d) (hd : d < x.length) :
    ¬ x.drop d <+: y ∧ ¬ y <+: x.drop d := by
  unfold overlapsFrom at h
  rw [List.any_eq_false] at h
  have := h d (List.mem_range.mpr hd)
  simp only [hlo, decide_True, Bool.true_and, Bool.or_eq_true, List.isPrefixOf_iff_prefix,
    not_or] at this
  exact this

/-- No occurrence of `y` starts inside the copy of `x` in `u ++ x ++ t`. -/
theorem no_inner_occurrence {x y : GoString} (h : overlapsFrom 0 x y = false)
    (u t : GoString) {i : Nat} (h1 : u.length ≤ i) (h2 : i < u.length + x.length) :
    ¬ y <+: (u ++ x ++ t).drop i := by
  intro hp
  obtain ⟨d, rfl⟩ : ∃ d, i = u.length + d := ⟨i - u.length, by omega⟩
  have hd : d < x.length := by omega
  rw [List.append_assoc, List.drop_append, List.drop_append_of_le_length (Nat.le_of_lt hd)] at hp
  have hx : x.drop d <+: x.drop d ++ t := List.prefix_append _ _
  rcases List.prefix_or_prefix_of_prefix hp hx with h' | h'
  · exact (overlapsFrom_false h (Nat.zero_le d) hd).2 h'
  · exact (overlapsFrom_false h (Nat.zero_le d) hd).1 h'

/-- No occurrence of `y` starts inside `u` in `u ++ x ++ t`, when `y` does not occur in `u`
and no proper suffix of `y` can run into `x`. -/
theorem no_early_occurrence {x y : GoString} (h : overlapsFrom 1 y x = false)
    {u : GoString} (hu : ¬ y <:+: u) (t : GoString) {i : Nat} (hi : i < u.length) :
    ¬ y <+: (u ++ x ++ t).drop i := by
  intro hp
  rw [List.append_assoc, List.drop_append_of_le_length (Nat.le_of_lt hi)] at hp
  have hu' : u.drop i <+: u.drop i ++ (x ++ t) := List.prefix_append _ _
  rcases List.prefix_or_prefix_of_prefix hp hu' with h' | h'
  · exact hu (List.IsInfix.trans h'.isInfix (List.drop_suffix i u).isInfix)
  · obtain ⟨w, hw⟩ := h'
    have hlen : (u.drop i).length = u.length - i := List.length_drop i u
    by_cases hwn : w = []
    · subst hwn
      rw [List.append_nil] at hw
      exact hu (hw ▸ (List.drop_suffix i u).isInfix)
    · have hyl : y.length = (u.length - i) + w.length := by
        rw [← hw, List.length_append, hlen]
      have hwl : 0 < w.length := List.length_pos.mpr hwn
      have hdrop : y.drop (u.length - i) = w := by
        rw [← hw, ← hlen, List.drop_left]
      rw [← hw, List.prefix_append_right_inj] at hp
      have hx : x <+: x ++ t := List.prefix_append _ _
      have hov := overlapsFrom_false h (d := u.length - i) (by omega) (by omega)
      rw [hdrop] at hov
      rcases List.prefix_or_prefix_of_prefix hp hx with h'' | h''
      · exact hov.1 h''
      · exact hov.2 h''


/-- The text strictly between the first `mk` and the following `vs`. -/
theorem split_between {mk vs : GoString} (hmk : mk ≠ []) (hvs : vs ≠ [])
    (h1 : overlapsFrom 1 mk mk = false) (h2 : overlapsFrom 1 mk vs = false)
    (h3 : overlapsFrom 0 vs mk = false) (h4 : overlapsFrom 1 vs vs = false)
    {pre c : GoString} (post : GoString)
    (hpre : ¬ mk <:+: pre) (hc : ¬ mk <:+: c) (hcv : ¬ vs <:+: c) :
    Strings.Index (pre ++ mk ++ c ++ vs ++ post) mk = some pre.length ∧
    (Strings.Split ((Strings.Split (pre ++ mk ++ c ++ vs ++ post) mk).getD 1 []) vs).getD 0 []
      = c := by
  have htext : pre ++ mk ++ c ++ vs ++ post = pre ++ mk ++ (c ++ vs ++ post) := by
    simp [List.append_assoc]
  have hidx : Strings.Index (pre ++ mk ++ c ++ vs ++ post) mk = some pre.length := by
    rw [htext]
    apply Strings.Index_eq_some
    · rw [List.append_assoc, List.drop_left]
      exact List.prefix_append _ _
    · intro i hi
      exact no_early_occurrence h1 hpre _ hi
  refine ⟨hidx, ?_⟩
  rw [Strings.Split_getD_one hmk hidx]
  have hdrop : (pre ++ mk ++ c ++ vs ++ post).drop (pre.length + mk.length) = c ++ vs ++ post := by
    rw [htext, ← List.length_append, List.drop_left]
  rw [hdrop]
  -- the second piece starts with `c ++ vs`
  have hpiece : ∃ p, (Strings.Index (c ++ vs ++ post) mk).elim (c ++ vs ++ post)
      (fun k => (c ++ vs ++ post).take k) = c ++ vs ++ p := by
    cases hk : Strings.Index (c ++ vs ++ post) mk with
    | none => exact ⟨post, rfl⟩
    | some k =>
      obtain ⟨_, hp, _⟩ := Strings.Index_some hk
      have hge : c.length + vs.length ≤ k := by
        by_contra hlt
        rcases Nat.lt_or_ge k c.length with hlt1 | hge1
        · exact no_early_occurrence h2 hc post hlt1 hp
        · exact no_inner_occurrence h3 c post hge1 (by omega) hp
      refine ⟨post.take (k - (c.length + vs.length)), ?_⟩
      simp only [Option.elim]
      rw [List.take_append_eq_append_take, List.take_of_length_le (by simpa using hge),
        List.length_append]
  obtain ⟨p, hp⟩ := hpiece
  rw [hp, Strings.Split_getD_zero hvs]
  have hv : Strings.Index (c ++ vs ++ p) vs = some c.length := by
    apply Strings.Index_eq_some
    · rw [List.append_assoc, List.drop_left]
      exact List.prefix_append _ _
    · intro i hi
      exact no_early_occurrence h4 hcv _ hi
  rw [hv]
  simp [List.append_assoc]

theorem online_ne_nil : online ≠ [] := by decide
theorem offline_ne_nil : offline ≠ [] := by decide
theorem versiya_ne_nil : versiya ≠ [] := by decide

theorem not_infix_of_Contains {s sub : GoString} (h : Strings.Contains s sub = false) :
    ¬ sub <:+: s := by
  intro hc
  rw [Strings.Contains_iff.mpr hc] at h
  cases h

theorem candidate_eq_none {ver : GoString} :
    candidate ver = none ↔
      Strings.Contains ver online = false ∧ Strings.Contains ver offline = false := by
  unfold candidate
  simp only [Strings.Contains_eq_false, Strings.Split_length_le_one online_ne_nil,
    Strings.Split_length_le_one offline_ne_nil]
  by_cases h1 : Strings.Index ver online = none <;>
    by_cases h2 : Strings.Index ver offline = none <;> simp [h1, h2]

theorem candidate_online {pre c : GoString} (post : GoString)
    (hpre : Strings.Contains pre online = false)
    (hc : Strings.Contains c online = false) (hcv : Strings.Contains c versiya = false) :
    candidate (pre ++ online ++ c ++ versiya ++ post) = some c := by
  have hb := split_between online_ne_nil versiya_ne_nil (by decide) (by decide) (by decide)
    (by decide) post (not_infix_of_Contains hpre) (not_infix_of_Contains hc)
    (not_infix_of_Contains hcv)
  unfold candidate
  simp only [Strings.Split_length_le_one online_ne_nil, hb.1, hb.2]
  simp

theorem candidate_offline {pre c : GoString} (post : GoString)
    (hpre : Strings.Contains pre offline = false)
    (hc : Strings.Contains c offline = false) (hcv : Strings.Contains c versiya = false)
    (hon : Strings.Contains (pre ++ offline ++ c ++ versiya ++ post) online = false) :
    candidate (pre ++ offline ++ c ++ versiya ++ post) = some c := by
  have hb := split_between offline_ne_nil versiya_ne_nil (by decide) (by decide) (by decide)
    (by decide) post (not_infix_of_Contains hpre) (not_infix_of_Contains hc)
    (not_infix_of_Contains hcv)
  unfold candidate
  simp only [Strings.Split_length_le_one online_ne_nil,
    Strings.Split_length_le_one offline_ne_nil, Strings.Contains_eq_false.mp hon, hb.1, hb.2]
  simp


/-! ## The state effects of the operations -/

theorem parsingServersList_state (env : Env V) (url : GoString) (st : State V) :
    (parsingServersList env url st).2 = { st with requests := url :: st.requests } := by
  unfold parsingServersList httpGet
  cases env.respond st.requests.length url with
  | none => rfl
  | some res =>
    dsimp only
    split
    · rfl
    · split <;> rfl

theorem parsingServersList_fetched (env : Env V) (url : GoString) (st : State V)
    (doc : Document) (hget : env.respond st.requests.length url = some ⟨200, some doc⟩) :
    parsingServersList env url st =
      (parseDocument env doc, { st with requests := url :: st.requests }) := by
  simp [parsingServersList, httpGet, hget]

theorem lastPage_state (env : Env V) (url : GoString) (st : State V) :
    (lastPage env url st).2 = { st with requests := url :: st.requests } := by
  unfold lastPage httpGet
  cases env.respond st.requests.length url with
  | none => rfl
  | some res =>
    dsimp only
    split
    · rfl
    · split <;> rfl

theorem lastPage_fetched (env : Env V) (url : GoString) (st : State V)
    (doc : Document) (hget : env.respond st.requests.length url = some ⟨200, some doc⟩) :
    lastPage env url st =
      ((scanPagination env doc.pagination, none), { st with requests := url :: st.requests }) := by
  simp [lastPage, httpGet, hget]

theorem merge_eq (env : Env V) (m : GoMap V) (st : State V) :
    merge env m st =
      { watcher := ⟨(env.rangeOrder st.ranges m.entries).foldl (fun c e => c.insert e.1 e.2)
          st.watcher.verByServer⟩,
        requests := st.requests, ranges := st.ranges + 1 } := rfl

theorem findByContains_watcher (env : Env V) (host : GoString) (st : State V) :
    (findByContains env host st).2.watcher = st.watcher := by
  unfold findByContains range
  dsimp only
  split <;> rfl

/-! ## Upserting a list of entries -/

theorem foldl_insert_mem (es : List (Sigma fun _ : GoString => V)) (m : GoMap V)
    (k : GoString) (hk : k ∈ m) : k ∈ es.foldl (fun c e => c.insert e.1 e.2) m := by
  induction es generalizing m with
  | nil => exact hk
  | cons e t ih =>
    rw [List.foldl_cons]
    exact ih _ ((AList.mem_insert _).mpr (Or.inr hk))

theorem foldl_insert_lookup_of_not_mem (es : List (Sigma fun _ : GoString => V))
    (m : GoMap V) (k : GoString) (hk : ∀ e ∈ es, e.1 ≠ k) :
    (es.foldl (fun c e => c.insert e.1 e.2) m).lookup k = m.lookup k := by
  induction es generalizing m with
  | nil => rfl
  | cons e t ih =>
    rw [List.foldl_cons, ih _ (fun x hx => hk x (List.mem_cons_of_mem _ hx))]
    exact AList.lookup_insert_ne (Ne.symm (hk e (List.mem_cons_self _ _)))

theorem foldl_insert_lookup_cases (es : List (Sigma fun _ : GoString => V))
    (m : GoMap V) (k : GoString) (v : V)
    (h : (es.foldl (fun c e => c.insert e.1 e.2) m).lookup k = some v) :
    m.lookup k = some v ∨ (⟨k, v⟩ : Sigma fun _ : GoString => V) ∈ es := by
  induction es generalizing m with
  | nil => exact Or.inl h
  | cons e t ih =>
    rw [List.foldl_cons] at h
    rcases ih _ h with h' | h'
    · by_cases hk : k = e.1
      · subst hk
        rw [AList.lookup_insert] at h'
        cases h'
        exact Or.inr (List.mem_cons_self _ _)
      · rw [AList.lookup_insert_ne hk] at h'
        exact Or.inl h'
    · exact Or.inr (List.mem_cons_of_mem _ h')

theorem mem_rangeOrder (env : Env V) (n : Nat) (m : GoMap V)
    (e : Sigma fun _ : GoString => V) :
    e ∈ env.rangeOrder n m.entries ↔ m.lookup e.1 = some e.2 := by
  rw [(env.rangeOrder_perm n m.entries).mem_iff]
  cases e with
  | mk k v => exact (AList.mem_lookup_iff).symm


/-! ## Lookup -/

/-- C1: when `hostKey` is a key of the cache, `VersionByServer` returns the version stored
under it with no error, makes no request (the log of requests is unchanged) and leaves the
whole state, in particular the cache, unchanged. -/
theorem versionByServer_hit (env : Env V) (st : State V) (host : GoString) (v : V)
    (hkey : st.watcher.verByServer.lookup host = some v) :
    VersionByServer env host st = (.ok v, st) ∧
      (VersionByServer env host st).2.requests = st.requests ∧
      (VersionByServer env host st).2.watcher = st.watcher := by
  have h : VersionByServer env host st = (.ok v, st) := by
    unfold VersionByServer
    rw [hkey]
  rw [h]
  exact ⟨rfl, rfl, rfl⟩

/-- Witness of C1: the key `play.example.com` of the sample cache. -/
theorem versionByServer_hit_witness :
    Sample.cached.watcher.verByServer.lookup (utf8 "play.example.com") = some [1, 2, 0] ∧
      VersionByServer (Sample.env ⟨[], []⟩) (utf8 "play.example.com") Sample.cached
        = (.ok [1, 2, 0], Sample.cached) :=
  ⟨by decide,
    (versionByServer_hit (Sample.env ⟨[], []⟩) Sample.cached (utf8 "play.example.com")
      [1, 2, 0] (by decide)).1⟩

theorem versionByServer_miss (env : Env V) (st st' : State V) (host : GoString)
    (m : GoMap V) (hmiss : st.watcher.verByServer.lookup host = none)
    (hsearch : parsingServersList env (searchURL host) st = ((m, none), st'))
    (hne : m.entries ≠ []) :
    VersionByServer env host st = findByContains env host (merge env m st') := by
  unfold VersionByServer
  rw [hmiss]
  simp only [hsearch]
  rw [if_neg]
  simpa using hne

theorem findByContains_eq (env : Env V) (host : GoString) (st : State V) :
    (findByContains env host st).1 =
      match (env.rangeOrder st.ranges st.watcher.verByServer.entries).find?
          (fun e => Strings.Contains e.1 host) with
      | some e => .ok e.2
      | none => .error (.notFoundForServer host) := by
  unfold findByContains range
  dsimp only
  split <;> simp_all

/-- C2: on a miss whose search returns a non-empty entry set without error, the lookup
succeeds exactly when some key of the merged cache contains `hostKey`; the version returned
is the one stored in the merged cache under the first such key in the scan order of the
`range` loop; otherwise the lookup fails with "version not found for server". -/
theorem versionByServer_miss_scan (env : Env V) (st st' : State V) (host : GoString)
    (m : GoMap V) (hmiss : st.watcher.verByServer.lookup host = none)
    (hsearch : parsingServersList env (searchURL host) st = ((m, none), st'))
    (hne : m.entries ≠ []) :
    ((∃ v, (VersionByServer env host st).1 = .ok v) ↔
        ∃ k ∈ (merge env m st').watcher.verByServer.keys, Strings.Contains k host = true) ∧
      (∀ v, (VersionByServer env host st).1 = .ok v →
        ∃ k before after,
          env.rangeOrder (merge env m st').ranges (merge env m st').watcher.verByServer.entries
            = before ++ ⟨k, v⟩ :: after ∧
          (∀ e ∈ before, Strings.Contains e.1 host = false) ∧
          Strings.Contains k host = true ∧
          (merge env m st').watcher.verByServer.lookup k = some v) ∧
      ((¬ ∃ k ∈ (merge env m st').watcher.verByServer.keys, Strings.Contains k host = true) →
        (VersionByServer env host st).1 = .error (.notFoundForServer host)) ∧
      (VersionByServer env host st).2.watcher = (merge env m st').watcher := by
  rw [versionByServer_miss env st st' host m hmiss hsearch hne, findByContains_eq,
    findByContains_watcher]
  generalize merge env m st' = s
  have hperm := env.rangeOrder_perm s.ranges s.watcher.verByServer.entries
  cases hf : (env.rangeOrder s.ranges s.watcher.verByServer.entries).find?
      (fun e => Strings.Contains e.1 host) with
  | none =>
    have hnone : ¬ ∃ k ∈ s.watcher.verByServer.keys, Strings.Contains k host = true := by
      rintro ⟨k, hk, hc⟩
      rw [← AList.mem_keys, ← AList.lookup_isSome] at hk
      obtain ⟨v, hv⟩ := Option.isSome_iff_exists.mp hk
      rw [List.find?_eq_none] at hf
      exact hf ⟨k, v⟩ ((mem_rangeOrder env _ _ ⟨k, v⟩).mpr hv) hc
    refine ⟨⟨fun ⟨v, hv⟩ => (by cases hv), fun h => absurd h hnone⟩, ?_, fun _ => rfl, rfl⟩
    intro v hv
    cases hv
  | some e =>
    obtain ⟨hp, before, after, heq, hbefore⟩ := List.find?_eq_some.mp hf
    have hmem : e ∈ env.rangeOrder s.ranges s.watcher.verByServer.entries := by
      rw [heq]; simp
    have hlook := (mem_rangeOrder env _ _ e).mp hmem
    have hex : ∃ k ∈ s.watcher.verByServer.keys, Strings.Contains k host = true :=
      ⟨e.1, by rw [← AList.mem_keys, ← AList.lookup_isSome, hlook]; rfl, hp⟩
    refine ⟨⟨fun _ => hex, fun _ => ⟨e.2, rfl⟩⟩, ?_, fun h => absurd hex h, rfl⟩
    intro v hv
    cases hv
    refine ⟨e.1, before, after, heq, ?_, hp, hlook⟩
    intro x hx
    simpa using hbefore x hx

/-- Witness of C2: cache `play.example.com ↦ 1.2.0`, query `example.com`, the search
returning the same single entry: the lookup returns 1.2.0. -/
theorem versionByServer_miss_scan_witness :
    (VersionByServer (Sample.env Sample.listing) (utf8 "example.com") Sample.cached).1
        = .ok [1, 2, 0] ∧
      ((∃ v, (VersionByServer (Sample.env Sample.listing) (utf8 "example.com")
          Sample.cached).1 = .ok v) ↔
        ∃ k ∈ (merge (Sample.env Sample.listing) Sample.cached.watcher.verByServer
            ⟨Sample.cached.watcher, [searchURL (utf8 "example.com")], 0⟩).watcher.verByServer.keys,
          Strings.Contains k (utf8 "example.com") = true) :=
  ⟨by rfl,
    (versionByServer_miss_scan (Sample.env Sample.listing) Sample.cached
      ⟨Sample.cached.watcher, [searchURL (utf8 "example.com")], 0⟩ (utf8 "example.com")
      Sample.cached.watcher.verByServer (by decide) (by rfl) (by decide)).1⟩

/-- C3: on a miss whose search returns an empty entry set without error, the lookup fails
with "version not found for host", a not-found error, and the cache is unchanged; the
substring scan is not reached, whatever the other keys of the cache. -/
theorem versionByServer_empty_search (env : Env V) (st st' : State V) (host : GoString)
    (m : GoMap V) (hmiss : st.watcher.verByServer.lookup host = none)
    (hsearch : parsingServersList env (searchURL host) st = ((m, none), st'))
    (hempty : m.entries = []) :
    VersionByServer env host st = (.error (.notFoundForHost host), st') ∧
      (Error.notFoundForHost host).kind = .notFound ∧
      st'.watcher = st.watcher ∧ st'.ranges = st.ranges := by
  have hst : st' = { st with requests := searchURL host :: st.requests } := by
    have h := parsingServersList_state env (searchURL host) st
    rw [hsearch] at h
    exact h
  refine ⟨?_, rfl, by rw [hst], by rw [hst]⟩
  unfold VersionByServer
  rw [hmiss]
  simp only [hsearch]
  rw [if_pos]
  simp [hempty]

/-- Witness of C3: the cached key `play.example.com` contains the query `example.com`, the
search finds nothing, and the lookup fails. -/
theorem versionByServer_empty_search_witness :
    (∃ k ∈ Sample.cached.watcher.verByServer.keys,
        Strings.Contains k (utf8 "example.com") = true) ∧
      VersionByServer (Sample.env ⟨[], []⟩) (utf8 "example.com") Sample.cached
        = (.error (.notFoundForHost (utf8 "example.com")),
            ⟨Sample.cached.watcher, [searchURL (utf8 "example.com")], 0⟩) :=
  ⟨⟨utf8 "play.example.com", by decide, by decide⟩,
    (versionByServer_empty_search (Sample.env ⟨[], []⟩) Sample.cached
      ⟨Sample.cached.watcher, [searchURL (utf8 "example.com")], 0⟩ (utf8 "example.com")
      ∅ (by decide) (by rfl) (by rfl)).1⟩


/-! ## Pagination -/

theorem foldl_atoi_eq (env : Env V) (labels : List GoString) (init : Int) :
    labels.foldl
        (fun lastPage text =>
          match env.atoi text with
          | none => lastPage
          | some page => page)
        init
      = (labels.filterMap env.atoi).getLastD init := by
  induction labels generalizing init with
  | nil => rfl
  | cons l t ih =>
    rw [List.foldl_cons, ih]
    cases h : env.atoi l with
    | none => rw [List.filterMap_cons_none h]
    | some p => rw [List.filterMap_cons_some h, List.getLastD_cons]

theorem scanPagination_eq (env : Env V) (labels : List GoString) :
    scanPagination env labels = (labels.filterMap env.atoi).getLastD (-1) :=
  foldl_atoi_eq env labels (-1)

theorem le_getLast_of_pairwise : ∀ (l : List Int) (h : l ≠ []),
    l.Pairwise (· ≤ ·) → ∀ k ∈ l, k ≤ l.getLast h
  | [], h, _, _, _ => absurd rfl h
  | [a], _, _, k, hk => by
    simp only [List.mem_singleton] at hk
    simp [hk]
  | a :: b :: t, _, hp, k, hk => by
    rw [List.getLast_cons (List.cons_ne_nil b t)]
    rw [List.pairwise_cons] at hp
    rcases List.mem_cons.mp hk with rfl | hk'
    · exact hp.1 _ (List.getLast_mem _)
    · exact le_getLast_of_pairwise (b :: t) (List.cons_ne_nil b t) hp.2 k hk'

/-- C4 (counterexample): on the labels `5`, `1` the resolver returns 1, which is not the
maximum 5 of the numeric labels. -/
theorem lastPage_not_maximum :
    (lastPage (Sample.env ⟨[], [utf8 "5", utf8 "1"]⟩) rootURL State.init).1 = (1, none) ∧
      [utf8 "5", utf8 "1"].filterMap (Sample.env ⟨[], [utf8 "5", utf8 "1"]⟩).atoi = [5, 1] := by
  constructor <;> decide

/-- C4 (amended): when some label parses as an integer, `lastPage` returns the value of the
last numeric label in document order, with no error; this is the maximum of the numeric
values when they appear in non-decreasing order. -/
theorem lastPage_last_numeric (env : Env V) (st : State V) (url : GoString) (doc : Document)
    (hget : env.respond st.requests.length url = some ⟨200, some doc⟩)
    (hnum : doc.pagination.filterMap env.atoi ≠ []) :
    (lastPage env url st).1 = ((doc.pagination.filterMap env.atoi).getLast hnum, none) ∧
      ((doc.pagination.filterMap env.atoi).Pairwise (· ≤ ·) →
        ∀ k ∈ doc.pagination.filterMap env.atoi, k ≤ (lastPage env url st).1.1) := by
  have h : (lastPage env url st).1 = ((doc.pagination.filterMap env.atoi).getLast hnum, none) := by
    rw [lastPage_fetched env url st doc hget, scanPagination_eq,
      List.getLastD_eq_getLast?, List.getLast?_eq_getLast _ hnum]
    rfl
  refine ⟨h, fun hp k hk => ?_⟩
  rw [h]
  exact le_getLast_of_pairwise _ hnum hp k hk

/-- Witness of C4: the labels 1, 2, "next", 5 give 5. -/
theorem lastPage_last_numeric_witness :
    (lastPage (Sample.env ⟨[], [utf8 "1", utf8 "2", utf8 "next", utf8 "5"]⟩) rootURL
        State.init).1 = (5, none) :=
  (lastPage_last_numeric (Sample.env ⟨[], [utf8 "1", utf8 "2", utf8 "next", utf8 "5"]⟩)
    State.init rootURL ⟨[], [utf8 "1", utf8 "2", utf8 "next", utf8 "5"]⟩ rfl (by decide)).1

/-! ## Refresh cycle -/

/-- C5 (counterexample): the root page has no numeric pagination label and lists
`play.example.com`; the resolver returns -1 and the refresh cycle requests the pagination
root only and leaves the cache empty. -/
theorem update_sentinel_scans_nothing :
    (lastPage (Sample.env Sample.listing) rootURL State.init).1 = (-1, none) ∧
      (parseDocument (Sample.env Sample.listing) Sample.listing).1.lookup
        (utf8 "play.example.com") = some [1, 2, 0] ∧
      (update (Sample.env Sample.listing) State.init).2.watcher.verByServer.lookup
        (utf8 "play.example.com") = none ∧
      (update (Sample.env Sample.listing) State.init).2.requests = [rootURL] := by
  refine ⟨by decide, by decide, by decide, by decide⟩

/-- C5 (amended): when the resolver returns the sentinel -1 without error, the refresh
cycle makes no further request (the pagination root is the only URL requested), scans no
listing page, reports no error and leaves the cache unchanged. -/
theorem update_sentinel (env : Env V) (st st' : State V)
    (hlast : lastPage env rootURL st = ((-1, none), st')) :
    update env st = (none, st') ∧ st'.watcher = st.watcher ∧
      st'.requests = rootURL :: st.requests ∧ st'.ranges = st.ranges := by
  have hst : st' = { st with requests := rootURL :: st.requests } := by
    have h := lastPage_state env rootURL st
    rw [hlast] at h
    exact h
  refine ⟨?_, by rw [hst], by rw [hst], by rw [hst]⟩
  unfold update
  simp only [hlast]
  rfl

/-- Witness of C5: a root page without pagination labels. -/
theorem update_sentinel_witness :
    update (Sample.env Sample.listing) Sample.cached
      = (none, ⟨Sample.cached.watcher, [rootURL], 0⟩) :=
  (update_sentinel (Sample.env Sample.listing) Sample.cached
    ⟨Sample.cached.watcher, [rootURL], 0⟩ (by rfl)).1


/-! ## Listing parser -/

theorem eachServer_empty_host_fst (env : Env V) (acc : GoMap V × Option Error)
    (ver : GoString) : (eachServer env acc ([], ver)).1 = acc.1 := by
  unfold eachServer
  cases candidate ver with
  | none => rfl
  | some c =>
    dsimp only
    split
    · rfl
    · simp

theorem eachServer_empty_host_valid (env : Env V) (acc : GoMap V × Option Error)
    (ver c : GoString) (hc : candidate ver = some c)
    (hv : env.semverIsValid (utf8 "v" ++ c) = true) : eachServer env acc ([], ver) = acc := by
  unfold eachServer
  simp [hc, hv]

theorem eachServer_fst_congr (env : Env V) (acc acc' : GoMap V × Option Error)
    (e : GoString × GoString) (h : acc.1 = acc'.1) :
    (eachServer env acc e).1 = (eachServer env acc' e).1 := by
  unfold eachServer
  cases candidate e.2 with
  | none => exact h
  | some c =>
    dsimp only
    split
    · exact h
    · split
      · cases env.newVersion c with
        | none => exact h
        | some v => simp [h]
      · exact h

theorem foldl_eachServer_filter_fst (env : Env V) (l : List (GoString × GoString))
    (acc acc' : GoMap V × Option Error) (h : acc.1 = acc'.1) :
    (l.foldl (eachServer env) acc).1
      = ((l.filter fun e => !e.1.isEmpty).foldl (eachServer env) acc').1 := by
  induction l generalizing acc acc' with
  | nil => exact h
  | cons e t ih =>
    rw [List.foldl_cons]
    obtain ⟨server, ver⟩ := e
    cases server with
    | nil =>
      rw [List.filter_cons_of_neg (by simp)]
      exact ih _ _ ((eachServer_empty_host_fst env acc ver).trans h)
    | cons b s =>
      rw [List.filter_cons_of_pos (by simp), List.foldl_cons]
      exact ih _ _ (eachServer_fst_congr env acc acc' _ h)

theorem foldl_eachServer_filter (env : Env V) (l : List (GoString × GoString))
    (acc : GoMap V × Option Error)
    (hl : ∀ e ∈ l, e.1 = [] →
      ∃ c, candidate e.2 = some c ∧ env.semverIsValid (utf8 "v" ++ c) = true) :
    l.foldl (eachServer env) acc
      = (l.filter fun e => !e.1.isEmpty).foldl (eachServer env) acc := by
  induction l generalizing acc with
  | nil => rfl
  | cons e t ih =>
    rw [List.foldl_cons]
    have ht := fun x hx => hl x (List.mem_cons_of_mem _ hx)
    obtain ⟨server, ver⟩ := e
    cases server with
    | nil =>
      obtain ⟨c, hc, hv⟩ := hl ([], ver) (List.mem_cons_self _ _) rfl
      rw [List.filter_cons_of_neg (by simp), eachServer_empty_host_valid env acc ver c hc hv]
      exact ih acc ht
    | cons b s =>
      rw [List.filter_cons_of_pos (by simp), List.foldl_cons]
      exact ih _ ht

/-- C6 (counterexample): a page whose only entry has an empty host key and the status text
`abc` parses to the empty map together with the error "field version not found". -/
theorem parse_empty_host_bad_status :
    (parseDocument (Sample.env ⟨[], []⟩) ⟨[([], utf8 "abc")], []⟩).1.entries = [] ∧
      (parseDocument (Sample.env ⟨[], []⟩) ⟨[([], utf8 "abc")], []⟩).2
        = some (.fieldVersionNotFound []) := by
  constructor <;> decide

/-- C6 (amended): an entry with an empty host key never adds anything to the result map,
whatever its status text (the map is the one parsed from the page without these entries);
it causes no error when its status text has a status marker and a candidate that passes
`semver.IsValid` (the result is then the one of the page without these entries); a page
consisting only of such entries parses to the empty map with no error. -/
theorem parse_empty_host (env : Env V) (doc : Document) :
    (parseDocument env doc).1
        = (parseDocument env ⟨doc.servers.filter fun e => !e.1.isEmpty, doc.pagination⟩).1 ∧
      ((∀ e ∈ doc.servers, e.1 = [] →
          ∃ c, candidate e.2 = some c ∧ env.semverIsValid (utf8 "v" ++ c) = true) →
        parseDocument env doc
          = parseDocument env ⟨doc.servers.filter fun e => !e.1.isEmpty, doc.pagination⟩) ∧
      ((∀ e ∈ doc.servers, e.1 = [] ∧
          ∃ c, candidate e.2 = some c ∧ env.semverIsValid (utf8 "v" ++ c) = true) →
        parseDocument env doc = (∅, none)) := by
  refine ⟨foldl_eachServer_filter_fst env _ _ _ rfl, foldl_eachServer_filter env _ _, ?_⟩
  intro h
  unfold parseDocument
  rw [foldl_eachServer_filter env _ _ (fun e he _ => (h e he).2)]
  have hnil : (doc.servers.filter fun e => !e.1.isEmpty) = [] := by
    rw [List.filter_eq_nil_iff]
    intro e he
    simp [(h e he).1]
  rw [hnil]
  rfl

/-- Witness of C6: a page of two empty-host entries with valid status texts. -/
theorem parse_empty_host_witness :
    parseDocument (Sample.env ⟨[], []⟩)
        ⟨[([], utf8 "онлайн1.20.1версия"), ([], utf8 "оффлайн1.8версия")], []⟩
      = (∅, none) :=
  (parse_empty_host (Sample.env ⟨[], []⟩)
    ⟨[([], utf8 "онлайн1.20.1версия"), ([], utf8 "оффлайн1.8версия")], []⟩).2.2 (by decide)

/-- C7 (counterexample): in `оффлайн1.0версияонлайн2.0версия` the text between the status
marker `оффлайн` and the version marker is `1.0`, which contains no marker, and nothing
precedes the status marker; the candidate computed is `2.0`. -/
theorem candidate_prefers_online :
    utf8 "оффлайн1.0версияонлайн2.0версия"
        = [] ++ offline ++ utf8 "1.0" ++ versiya ++ utf8 "онлайн2.0версия" ∧
      Strings.Contains (utf8 "1.0") online = false ∧
      Strings.Contains (utf8 "1.0") offline = false ∧
      Strings.Contains (utf8 "1.0") versiya = false ∧
      candidate (utf8 "оффлайн1.0версияонлайн2.0версия") = some (utf8 "2.0") ∧
      utf8 "2.0" ≠ utf8 "1.0" := by
  refine ⟨by decide, by decide, by decide, by decide, by decide, by decide⟩

/-- C7 (amended): for a status text `pre ++ marker ++ c ++ "версия" ++ post` where `pre`
contains no status marker, `c` contains neither a status marker nor `"версия"`, and `marker`
is `"онлайн"`, or is `"оффлайн"` while the whole text contains no `"онлайн"`, the candidate
is exactly `c`; the entry of a non-empty host then stores under that host the version
parsed from `c` when `c` validates and parses. -/
theorem candidate_between (pre marker c post : GoString)
    (hmarker : marker = online ∨
      (marker = offline ∧
        Strings.Contains (pre ++ marker ++ c ++ versiya ++ post) online = false))
    (hpre : Strings.Contains pre online = false ∧ Strings.Contains pre offline = false)
    (hc : Strings.Contains c online = false ∧ Strings.Contains c offline = false)
    (hcv : Strings.Contains c versiya = false) :
    candidate (pre ++ marker ++ c ++ versiya ++ post) = some c ∧
      ∀ (env : Env V) (acc : GoMap V × Option Error) (host : GoString) (v : V),
        host ≠ [] → env.semverIsValid (utf8 "v" ++ c) = true → env.newVersion c = some v →
        eachServer env acc (host, pre ++ marker ++ c ++ versiya ++ post)
          = (acc.1.insert host v, acc.2) := by
  have hcand : candidate (pre ++ marker ++ c ++ versiya ++ post) = some c := by
    rcases hmarker with rfl | ⟨rfl, hon⟩
    · exact candidate_online post hpre.1 hc.1 hcv
    · exact candidate_offline post hpre.2 hc.2 hcv hon
  refine ⟨hcand, ?_⟩
  intro env acc host v hhost hvalid hparse
  unfold eachServer
  rw [hcand]
  simp [hvalid, hparse, hhost]

/-- Witness of C7: the status text `онлайн1.20.1версия` yields the candidate `1.20.1`. -/
theorem candidate_between_witness :
    candidate (utf8 "онлайн1.20.1версия") = some (utf8 "1.20.1") ∧
      eachServer (Sample.env ⟨[], []⟩) (∅, none) (utf8 "a.example", utf8 "онлайн1.20.1версия")
        = ((∅ : GoMap (List Nat)).insert (utf8 "a.example") [1, 20, 1], none) :=
  ⟨(candidate_between (V := List Nat) [] online (utf8 "1.20.1") [] (Or.inl rfl)
      ⟨by decide, by decide⟩ ⟨by decide, by decide⟩ (by decide)).1,
    (candidate_between [] online (utf8 "1.20.1") [] (Or.inl rfl)
      ⟨by decide, by decide⟩ ⟨by decide, by decide⟩ (by decide)).2
      (Sample.env ⟨[], []⟩) (∅, none) (utf8 "a.example") [1, 20, 1]
      (by decide) (by decide) (by decide)⟩

theorem eachServer_keeps_parse_error (env : Env V) (acc : GoMap V × Option Error)
    (e : GoString × GoString) (h : ∃ err, acc.2 = some err ∧ err.kind = .parse) :
    ∃ err, (eachServer env acc e).2 = some err ∧ err.kind = .parse := by
  unfold eachServer
  cases candidate e.2 with
  | none => exact ⟨_, rfl, rfl⟩
  | some c =>
    dsimp only
    split
    · exact ⟨_, rfl, rfl⟩
    · split
      · cases env.newVersion c with
        | none => exact ⟨_, rfl, rfl⟩
        | some v => exact h
      · exact h

theorem foldl_eachServer_keeps_parse_error (env : Env V) (l : List (GoString × GoString))
    (acc : GoMap V × Option Error) (h : ∃ err, acc.2 = some err ∧ err.kind = .parse) :
    ∃ err, (l.foldl (eachServer env) acc).2 = some err ∧ err.kind = .parse := by
  induction l generalizing acc with
  | nil => exact h
  | cons e t ih => exact ih _ (eachServer_keeps_parse_error env acc e h)

/-- C8: if some entry of a fetched page with a non-empty host key has a status text with
neither status marker, or a candidate rejected by `semver.IsValid`, then
`parsingServersList` returns a parse error for the page, wherever the entry stands and
whatever the other entries are (the host key of the entry plays no part). -/
theorem parsingServersList_bad_entry (env : Env V) (st : State V) (url : GoString)
    (doc : Document)
    (hget : env.respond st.requests.length url = some ⟨200, some doc⟩)
    (e : GoString × GoString) (he : e ∈ doc.servers) (_hhost : e.1 ≠ [])
    (hbad : (Strings.Contains e.2 online = false ∧ Strings.Contains e.2 offline = false) ∨
      ∃ c, candidate e.2 = some c ∧ env.semverIsValid (utf8 "v" ++ c) = false) :
    ∃ err, (parsingServersList env url st).1.2 = some err ∧ err.kind = .parse := by
  rw [parsingServersList_fetched env url st doc hget]
  obtain ⟨before, after, hsplit⟩ := List.append_of_mem he
  unfold parseDocument
  rw [hsplit, List.foldl_append, List.foldl_cons]
  apply foldl_eachServer_keeps_parse_error
  unfold eachServer
  rcases hbad with hnone | ⟨c, hc, hv⟩
  · rw [candidate_eq_none.mpr hnone]
    exact ⟨_, rfl, rfl⟩
  · simp only [hc, hv]
    exact ⟨_, rfl, rfl⟩

/-- Witness of C8: the candidate `abc` between two valid entries. -/
theorem parsingServersList_bad_entry_witness :
    ∃ err, (parsingServersList
        (Sample.env ⟨[(utf8 "a.example", utf8 "онлайн1.20.1версия"),
          (utf8 "b.example", utf8 "онлайнabcверсия"),
          (utf8 "c.example", utf8 "оффлайн1.8версия")], []⟩)
        (pageURL 1) State.init).1.2 = some err ∧ err.kind = .parse :=
  parsingServersList_bad_entry _ State.init (pageURL 1) _ rfl
    (utf8 "b.example", utf8 "онлайнabcверсия") (by decide) (by decide)
    (Or.inr ⟨utf8 "abc", by decide, by decide⟩)


/-! ## The effect of the operations on the cache -/

theorem updatePage_eq (env : Env V) (st : State V) (i : Nat) :
    updatePage env st i =
      match (parsingServersList env (pageURL i) st).1.2 with
      | some _ => { st with requests := pageURL i :: st.requests }
      | none =>
        merge env (parsingServersList env (pageURL i) st).1.1
          { st with requests := pageURL i :: st.requests } := by
  have hs := parsingServersList_state env (pageURL i) st
  unfold updatePage
  rcases h : parsingServersList env (pageURL i) st with ⟨⟨m, err⟩, st'⟩
  rw [h] at hs
  dsimp only at hs
  subst hs
  cases err <;> rfl

theorem versionByServer_state (env : Env V) (host : GoString) (st : State V) :
    (VersionByServer env host st).2.watcher = st.watcher ∨
      ((parsingServersList env (searchURL host) st).1.2 = none ∧
        (VersionByServer env host st).2.watcher =
          (merge env (parsingServersList env (searchURL host) st).1.1
            { st with requests := searchURL host :: st.requests }).watcher) := by
  have hs := parsingServersList_state env (searchURL host) st
  unfold VersionByServer
  cases st.watcher.verByServer.lookup host with
  | some v => exact Or.inl rfl
  | none =>
    rcases h : parsingServersList env (searchURL host) st with ⟨⟨m, err⟩, st'⟩
    rw [h] at hs
    dsimp only at hs
    subst hs
    cases err with
    | some e => exact Or.inl rfl
    | none =>
      dsimp only
      split
      · exact Or.inl rfl
      · exact Or.inr ⟨rfl, findByContains_watcher _ _ _⟩

theorem versionByServer_failed_search (env : Env V) (host : GoString) (st : State V)
    (herr : (parsingServersList env (searchURL host) st).1.2 ≠ none) :
    (VersionByServer env host st).2.watcher = st.watcher := by
  rcases versionByServer_state env host st with h | ⟨h, _⟩
  · exact h
  · exact absurd h herr

theorem updatePage_failed (env : Env V) (st : State V) (i : Nat)
    (herr : (parsingServersList env (pageURL i) st).1.2 ≠ none) :
    (updatePage env st i).watcher = st.watcher := by
  rw [updatePage_eq]
  cases h : (parsingServersList env (pageURL i) st).1.2 with
  | none => exact absurd h herr
  | some e => rfl

/-- A property of the cache that every page step preserves is preserved by `update`. -/
theorem update_preserves (env : Env V) (P : Watcher V → Prop)
    (hstep : ∀ (st : State V) (i : Nat), P st.watcher → P (updatePage env st i).watcher)
    (st : State V) (h : P st.watcher) : P (update env st).2.watcher := by
  have hs := lastPage_state env rootURL st
  unfold update
  rcases hl : lastPage env rootURL st with ⟨⟨n, err⟩, st'⟩
  rw [hl] at hs
  dsimp only at hs
  subst hs
  cases err with
  | some e => exact h
  | none =>
    dsimp only
    generalize List.range' 1 n.toNat = pages
    generalize hst : ({ st with requests := rootURL :: st.requests } : State V) = s
    have hP : P s.watcher := by rw [← hst]; exact h
    clear hst
    induction pages generalizing s with
    | nil => exact hP
    | cons i t ih => exact ih _ (hstep s i hP)

/-! ## Validity of the cache -/

theorem eachServer_validated (env : Env V) (acc : GoMap V × Option Error)
    (e : GoString × GoString) (h : CacheValidated env acc.1) :
    CacheValidated env (eachServer env acc e).1 := by
  unfold eachServer
  cases hc : candidate e.2 with
  | none => exact h
  | some c =>
    dsimp only
    split
    · exact h
    · rename_i hv
      split
      · cases hp : env.newVersion c with
        | none => exact h
        | some v =>
          intro k w hk
          by_cases hke : k = e.1
          · subst hke
            rw [AList.lookup_insert] at hk
            cases hk
            exact ⟨c, by simpa using hv, hp⟩
          · rw [AList.lookup_insert_ne hke] at hk
            exact h k w hk
      · exact h

theorem cacheValidated_empty (env : Env V) : CacheValidated env (∅ : GoMap V) := by
  intro k v h
  rw [AList.lookup_empty] at h
  cases h

theorem parseDocument_validated (env : Env V) (doc : Document) :
    CacheValidated env (parseDocument env doc).1 := by
  unfold parseDocument
  generalize hacc : ((∅, none) : GoMap V × Option Error) = acc
  have h : CacheValidated env acc.1 := by rw [← hacc]; exact cacheValidated_empty env
  clear hacc
  induction doc.servers generalizing acc with
  | nil => exact h
  | cons e t ih => exact ih _ (eachServer_validated env acc e h)

theorem parsingServersList_validated (env : Env V) (url : GoString) (st : State V) :
    CacheValidated env (parsingServersList env url st).1.1 := by
  unfold parsingServersList httpGet
  cases env.respond st.requests.length url with
  | none => exact cacheValidated_empty env
  | some res =>
    dsimp only
    split
    · exact cacheValidated_empty env
    · split
      · exact cacheValidated_empty env
      · exact parseDocument_validated env _

theorem merge_validated (env : Env V) (m : GoMap V) (st : State V)
    (hm : CacheValidated env m) (hst : CacheValidated env st.watcher.verByServer) :
    CacheValidated env (merge env m st).watcher.verByServer := by
  rw [merge_eq]
  intro k v hk
  rcases foldl_insert_lookup_cases _ _ k v hk with h | h
  · exact hst k v h
  · exact hm k v ((mem_rangeOrder env _ _ ⟨k, v⟩).mp h)

theorem updatePage_validated (env : Env V) (st : State V) (i : Nat)
    (hst : CacheValidated env st.watcher.verByServer) :
    CacheValidated env (updatePage env st i).watcher.verByServer := by
  rw [updatePage_eq]
  split
  · exact hst
  · exact merge_validated env _ _ (parsingServersList_validated env _ _) hst

theorem step_validated (env : Env V) (st : State V) (op : Op)
    (hst : CacheValidated env st.watcher.verByServer) :
    CacheValidated env (step env st op).watcher.verByServer := by
  cases op with
  | update =>
    exact update_preserves env (fun w => CacheValidated env w.verByServer)
      (fun s i => updatePage_validated env s i) st hst
  | lookup host =>
    show CacheValidated env (VersionByServer env host st).2.watcher.verByServer
    rcases versionByServer_state env host st with h | ⟨_, h⟩
    · rw [h]; exact hst
    · rw [h]
      exact merge_validated env _ _ (parsingServersList_validated env _ _) hst

theorem exec_validated (env : Env V) (ops : List Op) (st : State V)
    (hst : CacheValidated env st.watcher.verByServer) :
    CacheValidated env (exec env st ops).watcher.verByServer := by
  unfold exec
  induction ops generalizing st with
  | nil => exact hst
  | cons op t ih => exact ih _ (step_validated env st op hst)

/-- C9: starting from the empty cache, after any sequence of refresh cycles and lookups,
in any environment (any page contents, any fetch and parse failures), every version stored
in the cache is the parse of a candidate that passed `semver.IsValid("v" + candidate)`;
and a page reported as failed stores nothing: the page step of `update` and the lookup
leave the cache unchanged when `parsingServersList` returns an error. -/
theorem cache_validated (env : Env V) :
    (∀ (ops : List Op) (k : GoString) (v : V),
        (exec env State.init ops).watcher.verByServer.lookup k = some v →
        ∃ c : GoString, env.semverIsValid (utf8 "v" ++ c) = true ∧ env.newVersion c = some v) ∧
      (∀ (st : State V) (i : Nat), (parsingServersList env (pageURL i) st).1.2 ≠ none →
        (updatePage env st i).watcher = st.watcher) ∧
      (∀ (st : State V) (host : GoString),
        (parsingServersList env (searchURL host) st).1.2 ≠ none →
        (VersionByServer env host st).2.watcher = st.watcher) :=
  ⟨fun ops => exec_validated env ops State.init (cacheValidated_empty env),
    fun st i h => updatePage_failed env st i h,
    fun st host h => versionByServer_failed_search env host st h⟩


/-- Witness of C9: the version stored by a lookup is validated, and the page of
`Sample.mixed`, reported as failed although its map holds `a.example ↦ 1.20.1`, leaves
the cache unchanged. -/
theorem cache_validated_witness :
    (∃ c : GoString, Sample.semverIsValid (utf8 "v" ++ c) = true ∧
        Sample.segments c = some [1, 2, 0]) ∧
      (parsingServersList (Sample.env Sample.mixed) (pageURL 1) State.init).1.1.lookup
        (utf8 "a.example") = some [1, 20, 1] ∧
      (updatePage (Sample.env Sample.mixed) State.init 1).watcher = newWatcher :=
  ⟨(cache_validated (Sample.env Sample.listing)).1 [.lookup (utf8 "example.com")]
      (utf8 "play.example.com") [1, 2, 0] (by decide),
    by decide,
    (cache_validated (Sample.env Sample.mixed)).2.1 State.init 1 (by decide)⟩

/-! ## No eviction -/

theorem merge_mem (env : Env V) (m : GoMap V) (st : State V) (k : GoString)
    (hk : k ∈ st.watcher.verByServer) : k ∈ (merge env m st).watcher.verByServer := by
  rw [merge_eq]
  exact foldl_insert_mem _ _ k hk

theorem merge_lookup_of_not_mem (env : Env V) (m : GoMap V) (st : State V) (k : GoString)
    (hk : k ∉ m) :
    (merge env m st).watcher.verByServer.lookup k = st.watcher.verByServer.lookup k := by
  rw [merge_eq]
  apply foldl_insert_lookup_of_not_mem
  intro e he hek
  apply hk
  rw [← AList.lookup_isSome, ← hek, (mem_rangeOrder env _ _ e).mp he]
  rfl

theorem updatePage_mem (env : Env V) (k : GoString) (st : State V) (i : Nat)
    (hk : k ∈ st.watcher.verByServer) : k ∈ (updatePage env st i).watcher.verByServer := by
  rw [updatePage_eq]
  split
  · exact hk
  · exact merge_mem env _ _ k hk

theorem updatePage_lookup_of_not_mem (env : Env V) (k : GoString) (st : State V) (i : Nat)
    (hk : k ∉ (parsingServersList env (pageURL i) st).1.1) :
    (updatePage env st i).watcher.verByServer.lookup k = st.watcher.verByServer.lookup k := by
  rw [updatePage_eq]
  split
  · rfl
  · exact merge_lookup_of_not_mem env _ _ k hk

theorem versionByServer_mem (env : Env V) (host k : GoString) (st : State V)
    (hk : k ∈ st.watcher.verByServer) :
    k ∈ (VersionByServer env host st).2.watcher.verByServer := by
  rcases versionByServer_state env host st with h | ⟨_, h⟩
  · rw [h]; exact hk
  · rw [h]; exact merge_mem env _ _ k hk

theorem versionByServer_lookup_of_not_mem (env : Env V) (host k : GoString) (st : State V)
    (hk : k ∉ (parsingServersList env (searchURL host) st).1.1) :
    (VersionByServer env host st).2.watcher.verByServer.lookup k
      = st.watcher.verByServer.lookup k := by
  rcases versionByServer_state env host st with h | ⟨_, h⟩
  · rw [h]
  · rw [h]; exact merge_lookup_of_not_mem env _ _ k hk

theorem step_mem (env : Env V) (k : GoString) (st : State V) (op : Op)
    (hk : k ∈ st.watcher.verByServer) : k ∈ (step env st op).watcher.verByServer := by
  cases op with
  | update =>
    exact update_preserves env (fun w => k ∈ w.verByServer)
      (fun s i => updatePage_mem env k s i) st hk
  | lookup host => exact versionByServer_mem env host k st hk

theorem exec_mem (env : Env V) (k : GoString) (ops : List Op) (st : State V)
    (hk : k ∈ st.watcher.verByServer) : k ∈ (exec env st ops).watcher.verByServer := by
  unfold exec
  induction ops generalizing st with
  | nil => exact hk
  | cons op t ih => exact ih _ (step_mem env k st op hk)

/-! ## The content of the cache after a merge -/

theorem foldl_insert_lookup_of_mem (es : List (Sigma fun _ : GoString => V)) (c : GoMap V)
    (k : GoString) (v : V) (hmem : (⟨k, v⟩ : Sigma fun _ : GoString => V) ∈ es)
    (huniq : ∀ e ∈ es, e.1 = k → e.2 = v) :
    (es.foldl (fun c e => c.insert e.1 e.2) c).lookup k = some v := by
  induction es generalizing c with
  | nil => cases hmem
  | cons e t ih =>
    rw [List.foldl_cons]
    by_cases ht : ∃ x ∈ t, x.1 = k
    · obtain ⟨x, hx, hxk⟩ := ht
      have hxv := huniq x (List.mem_cons_of_mem _ hx) hxk
      have hmem' : (⟨k, v⟩ : Sigma fun _ : GoString => V) ∈ t := by
        obtain ⟨x1, x2⟩ := x
        dsimp only at hxk hxv
        subst hxk
        subst hxv
        exact hx
      exact ih _ hmem' (fun y hy => huniq y (List.mem_cons_of_mem _ hy))
    · have hnot : ∀ x ∈ t, x.1 ≠ k := fun x hx hxk => ht ⟨x, hx, hxk⟩
      rw [foldl_insert_lookup_of_not_mem t _ k hnot]
      rcases List.mem_cons.mp hmem with he | he
      · rw [← he]
        exact AList.lookup_insert _
      · exact absurd rfl (hnot _ he)

/-- Upserting the entries of the map `m`, in any order, gives the value of `m` where `m` has
one and the previous value elsewhere. -/
theorem foldl_insert_lookup (es : List (Sigma fun _ : GoString => V)) (m c : GoMap V)
    (hperm : es.Perm m.entries) (k : GoString) :
    (es.foldl (fun c e => c.insert e.1 e.2) c).lookup k = (m.lookup k).or (c.lookup k) := by
  have hmem : ∀ e : Sigma fun _ : GoString => V, e ∈ es ↔ m.lookup e.1 = some e.2 := by
    intro e
    rw [hperm.mem_iff]
    cases e with
    | mk a b => exact (AList.mem_lookup_iff).symm
  cases h : m.lookup k with
  | none =>
    rw [Option.none_or]
    apply foldl_insert_lookup_of_not_mem
    intro e he hek
    have := (hmem e).mp he
    rw [hek, h] at this
    cases this
  | some v =>
    rw [Option.or_some]
    apply foldl_insert_lookup_of_mem
    · exact (hmem ⟨k, v⟩).mpr h
    · intro e he hek
      have := (hmem e).mp he
      rw [hek, h] at this
      exact (Option.some.inj this).symm

theorem merge_lookup (env : Env V) (m : GoMap V) (st : State V) (k : GoString) :
    (merge env m st).watcher.verByServer.lookup k
      = (m.lookup k).or (st.watcher.verByServer.lookup k) := by
  rw [merge_eq]
  exact foldl_insert_lookup _ m _ (env.rangeOrder_perm _ _) k

theorem upsert_lookup (c m : GoMap V) (k : GoString) :
    (upsert c m).lookup k = (m.lookup k).or (c.lookup k) :=
  foldl_insert_lookup _ m c (List.Perm.refl _) k

theorem parsingServersList_eq (env : Env V) (url : GoString) (st : State V) :
    parsingServersList env url st =
      (parseResponse env (env.respond st.requests.length url),
        { st with requests := url :: st.requests }) := by
  unfold parsingServersList httpGet parseResponse
  cases env.respond st.requests.length url with
  | none => rfl
  | some res =>
    dsimp only
    split
    · rfl
    · split <;> rfl

/-! ## Continue-on-error -/

theorem updatePage_requests (env : Env V) (st : State V) (i : Nat) :
    (updatePage env st i).requests = pageURL i :: st.requests := by
  rw [updatePage_eq]
  split <;> rfl

theorem updatePage_lookup (env : Env V) (st : State V) (i : Nat) (k : GoString) :
    (updatePage env st i).watcher.verByServer.lookup k =
      (match parseResponse env (env.respond st.requests.length (pageURL i)) with
        | (m, none) => upsert st.watcher.verByServer m
        | (_, some _) => st.watcher.verByServer).lookup k := by
  rw [updatePage_eq, parsingServersList_eq]
  dsimp only
  rcases parseResponse env (env.respond st.requests.length (pageURL i)) with ⟨m, err⟩
  cases err with
  | some e => rfl
  | none =>
    dsimp only
    rw [merge_lookup, upsert_lookup]

theorem refreshStep_congr (env : Env V) (q : Nat) (i : Nat) (c c' : GoMap V)
    (h : ∀ k, c.lookup k = c'.lookup k) (k : GoString) :
    (match parseResponse env (env.respond q (pageURL i)) with
      | (m, none) => upsert c m
      | (_, some _) => c).lookup k
    = (match parseResponse env (env.respond q (pageURL i)) with
      | (m, none) => upsert c' m
      | (_, some _) => c').lookup k := by
  rcases parseResponse env (env.respond q (pageURL i)) with ⟨m, err⟩
  cases err with
  | some e => exact h k
  | none =>
    dsimp only
    rw [upsert_lookup, upsert_lookup, h k]

theorem foldl_updatePage_lookup (env : Env V) (r : Nat) (len : Nat) :
    ∀ (a : Nat) (s : State V) (c : GoMap V), s.requests.length = r + a →
      (∀ k, s.watcher.verByServer.lookup k = c.lookup k) →
      ∀ k, ((List.range' a len).foldl (updatePage env) s).watcher.verByServer.lookup k
        = (refreshSpec env r (List.range' a len) c).lookup k := by
  induction len with
  | zero =>
    intro a s c _ hc k
    exact hc k
  | succ n ih =>
    intro a s c hlen hc k
    rw [List.range'_succ, List.foldl_cons]
    unfold refreshSpec
    rw [List.foldl_cons]
    apply ih (a + 1)
    · rw [updatePage_requests, List.length_cons, hlen]
      omega
    · intro k'
      rw [updatePage_lookup, hlen]
      exact refreshStep_congr env (r + a) a _ _ hc k'

/-- C11: continue-on-error.  When the resolver returns `n`, the cache after the refresh
cycle has the content of the cache before it upserted, in page order, with the entries of
every page `1..n` that succeeded (`refreshSpec`): a failed page contributes nothing and
does not stop later pages; in particular an entry of the last successful page that has
the key is what the cache holds for this key. -/
theorem update_continue_on_error (env : Env V) (st st' : State V) (n : Int)
    (hlast : lastPage env rootURL st = ((n, none), st')) (k : GoString) :
    (update env st).1 = none ∧
      (update env st).2.watcher.verByServer.lookup k =
        (refreshSpec env st.requests.length (List.range' 1 n.toNat)
          st.watcher.verByServer).lookup k := by
  have hst : st' = { st with requests := rootURL :: st.requests } := by
    have h := lastPage_state env rootURL st
    rw [hlast] at h
    exact h
  have hupd : update env st = (none, (List.range' 1 n.toNat).foldl (updatePage env) st') := by
    unfold update
    rw [hlast]
  rw [hupd]
  refine ⟨rfl, ?_⟩
  apply foldl_updatePage_lookup env st.requests.length n.toNat 1 st'
  · rw [hst]; simp
  · intro k'; rw [hst]

/-- Witness of C11: three pages, the second of which fails: the entries of page 1 and of
page 3 are in the cache afterwards. -/
theorem update_continue_on_error_witness :
    (parseResponse (Sample.envSeq Sample.threePages)
        ((Sample.envSeq Sample.threePages).respond 2 (pageURL 2))).2
        = some (.invalidSemver (utf8 "abc")) ∧
      (update (Sample.envSeq Sample.threePages) State.init).2.watcher.verByServer.lookup
        (utf8 "a.example") = some [1, 20, 1] ∧
      (update (Sample.envSeq Sample.threePages) State.init).2.watcher.verByServer.lookup
        (utf8 "c.example") = some [1, 8] :=
  ⟨by decide,
    ((update_continue_on_error (Sample.envSeq Sample.threePages) State.init
      ⟨newWatcher, [rootURL], 0⟩ 3 (by rfl) (utf8 "a.example")).2).trans (by decide),
    ((update_continue_on_error (Sample.envSeq Sample.threePages) State.init
      ⟨newWatcher, [rootURL], 0⟩ 3 (by rfl) (utf8 "c.example")).2).trans (by decide)⟩

/-! ## Idempotence of the merge -/

/-- C12: merging the entry set `m` into the cache twice gives the same cache content as
merging it once: the same value, or absence, for every key. -/
theorem merge_idempotent (env : Env V) (m : GoMap V) (st : State V) (k : GoString) :
    (merge env m (merge env m st)).watcher.verByServer.lookup k
      = (merge env m st).watcher.verByServer.lookup k := by
  rw [merge_lookup, merge_lookup]
  cases m.lookup k <;> rfl


/-! ## Non-numeric pagination labels -/

theorem scanPagination_skip (env : Env V) (before after : List GoString) (x : GoString)
    (hx : env.atoi x = none) :
    scanPagination env (before ++ x :: after) = scanPagination env (before ++ after) := by
  rw [scanPagination_eq, scanPagination_eq, List.filterMap_append, List.filterMap_append,
    List.filterMap_cons_none hx]

/-- C13: on a fetched pagination root, `lastPage` never returns an error; when no label
parses as an integer (in particular when there is no label) it returns the sentinel -1;
and a label that does not parse never changes the result: the result is the one computed
from the labels without it. -/
theorem lastPage_non_numeric (env : Env V) (st : State V) (url : GoString) (doc : Document)
    (hget : env.respond st.requests.length url = some ⟨200, some doc⟩) :
    (lastPage env url st).1.2 = none ∧
      ((∀ l ∈ doc.pagination, env.atoi l = none) → (lastPage env url st).1 = (-1, none)) ∧
      (∀ (before after : List GoString) (x : GoString),
        doc.pagination = before ++ x :: after → env.atoi x = none →
        (lastPage env url st).1.1 = scanPagination env (before ++ after)) := by
  rw [lastPage_fetched env url st doc hget]
  refine ⟨rfl, ?_, ?_⟩
  · intro hall
    have hnil : doc.pagination.filterMap env.atoi = [] := by
      rw [List.filterMap_eq_nil_iff]
      exact hall
    show (scanPagination env doc.pagination, (none : Option Error)) = (-1, none)
    rw [scanPagination_eq, hnil]
    rfl
  · intro before after x hsplit hx
    show scanPagination env doc.pagination = _
    rw [hsplit]
    exact scanPagination_skip env before after x hx

/-- Witness of C13: the labels "prev", "next" give -1, the empty control gives -1, and
"next" does not change the result 2 of the labels 1, 2. -/
theorem lastPage_non_numeric_witness :
    (lastPage (Sample.env ⟨[], [utf8 "prev", utf8 "next"]⟩) rootURL State.init).1 = (-1, none) ∧
      (lastPage (Sample.env ⟨[], []⟩) rootURL State.init).1 = (-1, none) ∧
      (lastPage (Sample.env ⟨[], [utf8 "1", utf8 "2", utf8 "next"]⟩) rootURL State.init).1.1
        = scanPagination (Sample.env ⟨[], []⟩) ([utf8 "1", utf8 "2"] ++ []) :=
  ⟨(lastPage_non_numeric (Sample.env ⟨[], [utf8 "prev", utf8 "next"]⟩) State.init rootURL
      ⟨[], [utf8 "prev", utf8 "next"]⟩ rfl).2.1 (by decide),
    (lastPage_non_numeric (Sample.env ⟨[], []⟩) State.init rootURL ⟨[], []⟩ rfl).2.1
      (by decide),
    (lastPage_non_numeric (Sample.env ⟨[], [utf8 "1", utf8 "2", utf8 "next"]⟩) State.init
      rootURL ⟨[], [utf8 "1", utf8 "2", utf8 "next"]⟩ rfl).2.2
      [utf8 "1", utf8 "2"] [] (utf8 "next") rfl (by decide)⟩

/-! ## The miss path of the lookup -/

/-- C14: on a miss whose search returns a non-empty entry set `m` without error, the cache
after the lookup has the content of the cache before it upserted with every entry of `m`:
every key of `m` holds its value in `m`, whatever its relation to `hostKey`, and every
other key keeps what it had; this holds whether the lookup succeeds or fails. -/
theorem versionByServer_merges_all (env : Env V) (st st' : State V) (host : GoString)
    (m : GoMap V) (hmiss : st.watcher.verByServer.lookup host = none)
    (hsearch : parsingServersList env (searchURL host) st = ((m, none), st'))
    (hne : m.entries ≠ []) :
    (∀ k, (VersionByServer env host st).2.watcher.verByServer.lookup k
        = (upsert st.watcher.verByServer m).lookup k) ∧
      (∀ k v, m.lookup k = some v →
        (VersionByServer env host st).2.watcher.verByServer.lookup k = some v) ∧
      (∀ k, m.lookup k = none →
        (VersionByServer env host st).2.watcher.verByServer.lookup k
          = st.watcher.verByServer.lookup k) := by
  have hst : st' = { st with requests := searchURL host :: st.requests } := by
    have h := parsingServersList_state env (searchURL host) st
    rw [hsearch] at h
    exact h
  have hlook : ∀ k, (VersionByServer env host st).2.watcher.verByServer.lookup k
      = (m.lookup k).or (st.watcher.verByServer.lookup k) := by
    intro k
    rw [versionByServer_miss env st st' host m hmiss hsearch hne, findByContains_watcher,
      merge_lookup, hst]
  refine ⟨fun k => ?_, fun k v hk => ?_, fun k hk => ?_⟩
  · rw [hlook, upsert_lookup]
  · rw [hlook, hk]; rfl
  · rw [hlook, hk]; rfl

/-- Witness of C14: the query `example.org` misses, the search lists `b.example` only, the
lookup fails, and `b.example` is in the cache afterwards. -/
theorem versionByServer_merges_all_witness :
    (VersionByServer (Sample.env Sample.other) (utf8 "example.org") Sample.cached).1
        = .error (.notFoundForServer (utf8 "example.org")) ∧
      (VersionByServer (Sample.env Sample.other) (utf8 "example.org")
        Sample.cached).2.watcher.verByServer.lookup (utf8 "b.example") = some [1, 8] :=
  ⟨by rfl,
    (versionByServer_merges_all (Sample.env Sample.other) Sample.cached
      ⟨Sample.cached.watcher, [searchURL (utf8 "example.org")], 0⟩ (utf8 "example.org")
      (parseDocument (Sample.env Sample.other) Sample.other).1 (by decide) (by rfl)
      (by decide)).2.1 (utf8 "b.example") [1, 8] (by decide)⟩

theorem eachServer_error_kind (env : Env V) (acc : GoMap V × Option Error)
    (e : GoString × GoString) (h : ∀ err, acc.2 = some err → err.kind = .parse) :
    ∀ err, (eachServer env acc e).2 = some err → err.kind = .parse := by
  unfold eachServer
  cases candidate e.2 with
  | none => intro err herr; cases herr; rfl
  | some c =>
    dsimp only
    split
    · intro err herr; cases herr; rfl
    · split
      · cases env.newVersion c with
        | none => intro err herr; cases herr; rfl
        | some v => exact h
      · exact h

theorem parseDocument_error_kind (env : Env V) (doc : Document) :
    ∀ err, (parseDocument env doc).2 = some err → err.kind = .parse := by
  unfold parseDocument
  generalize hacc : ((∅, none) : GoMap V × Option Error) = acc
  have h : ∀ err, acc.2 = some err → err.kind = .parse := by
    rw [← hacc]
    intro err herr
    cases herr
  clear hacc
  induction doc.servers generalizing acc with
  | nil => exact h
  | cons e t ih => exact ih _ (eachServer_error_kind env acc e h)

theorem parseResponse_error_kind (env : Env V) (resp : Option Response) (err : Error)
    (h : (parseResponse env resp).2 = some err) : err.kind = .network ∨ err.kind = .parse := by
  unfold parseResponse at h
  cases resp with
  | none => cases h; exact Or.inl rfl
  | some res =>
    dsimp only at h
    split at h
    · cases h; exact Or.inl rfl
    · split at h
      · cases h; exact Or.inl rfl
      · exact Or.inr (parseDocument_error_kind env _ err h)

/-- C16: on a miss whose search fails with the error `err`, a network or a parse error,
the lookup returns `err` and the cache is unchanged: the map `m` returned with the error
is discarded, whatever it holds. -/
theorem versionByServer_search_error (env : Env V) (st st' : State V) (host : GoString)
    (m : GoMap V) (err : Error) (hmiss : st.watcher.verByServer.lookup host = none)
    (hsearch : parsingServersList env (searchURL host) st = ((m, some err), st')) :
    VersionByServer env host st = (.error err, st') ∧ st'.watcher = st.watcher ∧
      (err.kind = .network ∨ err.kind = .parse) := by
  have hst : st' = { st with requests := searchURL host :: st.requests } := by
    have h := parsingServersList_state env (searchURL host) st
    rw [hsearch] at h
    exact h
  refine ⟨?_, by rw [hst], ?_⟩
  · unfold VersionByServer
    rw [hmiss]
    simp only [hsearch]
  · have h := parsingServersList_eq env (searchURL host) st
    rw [hsearch] at h
    exact parseResponse_error_kind env _ err (congrArg (fun p => p.1.2) h).symm

/-- Witness of C16: the search page lists the valid `a.example` and then an unparsable
candidate; the lookup returns the parse error and the cache stays empty. -/
theorem versionByServer_search_error_witness :
    (parseDocument (Sample.env Sample.mixed) Sample.mixed).1.lookup (utf8 "a.example")
        = some [1, 20, 1] ∧
      VersionByServer (Sample.env Sample.mixed) (utf8 "a.example") State.init
        = (.error (.invalidSemver (utf8 "abc")),
            ⟨newWatcher, [searchURL (utf8 "a.example")], 0⟩) :=
  ⟨by decide,
    (versionByServer_search_error (Sample.env Sample.mixed) State.init
      ⟨newWatcher, [searchURL (utf8 "a.example")], 0⟩ (utf8 "a.example")
      (parseDocument (Sample.env Sample.mixed) Sample.mixed).1
      (.invalidSemver (utf8 "abc")) (by decide) (by rfl)).1⟩


/-! ## A not-found result is not cached -/

theorem contains_self (s : GoString) : Strings.Contains s s = true :=
  Strings.Contains_iff.mpr (List.infix_refl s)

theorem versionByServer_miss_eq (env : Env V) (host : GoString) (st : State V)
    (hmiss : st.watcher.verByServer.lookup host = none) :
    VersionByServer env host st =
      match parseResponse env (env.respond st.requests.length (searchURL host)) with
      | (_, some err) => (.error err, { st with requests := searchURL host :: st.requests })
      | (m, none) =>
        if m.entries.length = 0 then
          (.error (.notFoundForHost host), { st with requests := searchURL host :: st.requests })
        else
          findByContains env host
            (merge env m { st with requests := searchURL host :: st.requests }) := by
  unfold VersionByServer
  rw [hmiss, parsingServersList_eq]
  dsimp only
  rcases parseResponse env (env.respond st.requests.length (searchURL host)) with ⟨m, err⟩
  cases err <;> rfl

theorem findByContains_requests (env : Env V) (host : GoString) (st : State V) :
    (findByContains env host st).2.requests = st.requests := by
  unfold findByContains range
  dsimp only
  split <;> rfl

theorem versionByServer_miss_requests (env : Env V) (host : GoString) (st : State V)
    (hmiss : st.watcher.verByServer.lookup host = none) :
    (VersionByServer env host st).2.requests = searchURL host :: st.requests := by
  rw [versionByServer_miss_eq env host st hmiss]
  rcases parseResponse env (env.respond st.requests.length (searchURL host)) with ⟨m, err⟩
  cases err with
  | some e => rfl
  | none =>
    dsimp only
    split
    · rfl
    · rw [findByContains_requests]
      rfl

theorem versionByServer_not_found_absent (env : Env V) (st : State V) (host : GoString)
    (err : Error) (hres : (VersionByServer env host st).1 = .error err)
    (hkind : err.kind = .notFound) :
    (VersionByServer env host st).2.watcher.verByServer.lookup host = none := by
  cases hl : st.watcher.verByServer.lookup host with
  | some v =>
    have h : VersionByServer env host st = (.ok v, st) := by
      unfold VersionByServer
      rw [hl]
    rw [h] at hres
    cases hres
  | none =>
    rw [versionByServer_miss_eq env host st hl] at hres ⊢
    rcases hp : parseResponse env (env.respond st.requests.length (searchURL host))
      with ⟨m, e⟩
    rw [hp] at hres
    cases e with
    | some e' =>
      dsimp only at hres
      cases hres
      have hk := parseResponse_error_kind env _ err (by rw [hp])
      rw [hkind] at hk
      rcases hk with hk | hk <;> cases hk
    | none =>
      dsimp only at hres ⊢
      split
      · exact hl
      · rename_i hne
        rw [if_neg hne, findByContains_eq] at hres
        rw [findByContains_watcher]
        generalize merge env m { st with requests := searchURL host :: st.requests } = s at hres ⊢
        cases hf : (env.rangeOrder s.ranges s.watcher.verByServer.entries).find?
            (fun e => Strings.Contains e.1 host) with
        | some e => rw [hf] at hres; cases hres
        | none =>
          rw [List.find?_eq_none] at hf
          cases hv : s.watcher.verByServer.lookup host with
          | none => rfl
          | some v =>
            exact absurd (contains_self host)
              (hf ⟨host, v⟩ ((mem_rangeOrder env _ _ ⟨host, v⟩).mpr hv))

/-- C15: a not-found result is not cached.  When the lookup fails with a not-found error
(either message), `hostKey` is not a key of the cache after the call, and the lookup of
`hostKey` that follows immediately takes the miss path: it requests the search URL again. -/
theorem versionByServer_not_found_retries (env : Env V) (st : State V) (host : GoString)
    (err : Error) (hres : (VersionByServer env host st).1 = .error err)
    (hkind : err.kind = .notFound) :
    host ∉ (VersionByServer env host st).2.watcher.verByServer ∧
      (VersionByServer env host (VersionByServer env host st).2).2.requests
        = searchURL host :: (VersionByServer env host st).2.requests := by
  have h := versionByServer_not_found_absent env st host err hres hkind
  exact ⟨AList.lookup_eq_none.mp h, versionByServer_miss_requests env host _ h⟩

/-- Witness of C15: the query `example.org` fails after the merge of a search that lists
`b.example`; a second lookup requests the search URL a second time. -/
theorem versionByServer_not_found_retries_witness :
    (VersionByServer (Sample.env Sample.other) (utf8 "example.org") Sample.cached).1
        = .error (.notFoundForServer (utf8 "example.org")) ∧
      (VersionByServer (Sample.env Sample.other) (utf8 "example.org")
        (VersionByServer (Sample.env Sample.other) (utf8 "example.org")
          Sample.cached).2).2.requests
        = [searchURL (utf8 "example.org"), searchURL (utf8 "example.org")] :=
  ⟨by rfl,
    ((versionByServer_not_found_retries (Sample.env Sample.other) Sample.cached
      (utf8 "example.org") (.notFoundForServer (utf8 "example.org")) (by rfl) rfl).2).trans
      (by rfl)⟩

/-! ## Partial accumulation -/

theorem eachServer_fst (env : Env V) (acc : GoMap V × Option Error)
    (e : GoString × GoString) :
    (eachServer env acc e).1 =
      match accepted env e with
      | none => acc.1
      | some x => acc.1.insert x.1 x.2 := by
  unfold eachServer accepted
  cases candidate e.2 with
  | none => by_cases he : e.1 = [] <;> simp [he]
  | some c =>
    by_cases hv : env.semverIsValid (utf8 "v" ++ c) = true
    · by_cases he : e.1 = []
      · simp [hv, he]
      · cases hn : env.newVersion c <;> simp [hv, he, hn]
    · by_cases he : e.1 = [] <;> simp [hv, he]

theorem foldl_eachServer_fst (env : Env V) (l : List (GoString × GoString))
    (acc : GoMap V × Option Error) :
    (l.foldl (eachServer env) acc).1
      = (l.filterMap (accepted env)).foldl (fun m e => m.insert e.1 e.2) acc.1 := by
  induction l generalizing acc with
  | nil => rfl
  | cons e t ih =>
    rw [List.foldl_cons, ih, eachServer_fst]
    cases h : accepted env e with
    | none => rw [List.filterMap_cons_none h]
    | some x => rw [List.filterMap_cons_some h, List.foldl_cons]

/-- C18: partial accumulation.  The map returned by the listing parser for a fetched page,
with or without an error, is exactly the upsert in document order of the accepted entries
(`parseSpec`: non-empty host key, status marker, candidate that validates and parses); an
accepted entry is in the map under its host key with its version unless a later accepted
entry has the same key, whatever fails before or after it. -/
theorem parsingServersList_accumulates (env : Env V) (st : State V) (url : GoString)
    (doc : Document)
    (hget : env.respond st.requests.length url = some ⟨200, some doc⟩) :
    (parsingServersList env url st).1.1 = parseSpec env doc ∧
      ∀ (before after : List (GoString × GoString)) (e : GoString × GoString)
        (k : GoString) (v : V),
        doc.servers = before ++ e :: after → accepted env e = some ⟨k, v⟩ →
        (∀ x ∈ after, ∀ y, accepted env x = some y → y.1 ≠ k) →
        (parsingServersList env url st).1.1.lookup k = some v := by
  have hmap : (parsingServersList env url st).1.1 = parseSpec env doc := by
    rw [parsingServersList_fetched env url st doc hget]
    exact foldl_eachServer_fst env doc.servers (∅, none)
  refine ⟨hmap, ?_⟩
  intro before after e k v hsplit hacc hlast
  rw [hmap]
  unfold parseSpec
  rw [hsplit, List.filterMap_append, List.foldl_append, List.filterMap_cons_some hacc,
    List.foldl_cons, foldl_insert_lookup_of_not_mem]
  · exact AList.lookup_insert _
  · intro y hy
    obtain ⟨x, hx, hxy⟩ := List.mem_filterMap.mp hy
    exact hlast x hx y hxy

/-- Witness of C18: the page lists an unparsable candidate and then the valid
`a.example`: the parser returns an error and a map that holds `a.example ↦ 1.20.1`. -/
theorem parsingServersList_accumulates_witness :
    (parsingServersList
        (Sample.env ⟨[(utf8 "b.example", utf8 "онлайнabcверсия"),
          (utf8 "a.example", utf8 "онлайн1.20.1версия")], []⟩)
        (pageURL 1) State.init).1.2 = some (.invalidSemver (utf8 "abc")) ∧
      (parsingServersList
        (Sample.env ⟨[(utf8 "b.example", utf8 "онлайнabcверсия"),
          (utf8 "a.example", utf8 "онлайн1.20.1версия")], []⟩)
        (pageURL 1) State.init).1.1.lookup (utf8 "a.example") = some [1, 20, 1] :=
  ⟨by decide,
    (parsingServersList_accumulates
      (Sample.env ⟨[(utf8 "b.example", utf8 "онлайнabcверсия"),
        (utf8 "a.example", utf8 "онлайн1.20.1версия")], []⟩)
      State.init (pageURL 1) _ rfl).2
      [(utf8 "b.example", utf8 "онлайнabcверсия")] []
      (utf8 "a.example", utf8 "онлайн1.20.1версия") (utf8 "a.example") [1, 20, 1]
      rfl (by decide) (by decide)⟩


/-! ## Status texts without a version marker -/

theorem contains_take (rest sub : GoString) (k : Nat)
    (h : Strings.Contains rest sub = false) : Strings.Contains (rest.take k) sub = false := by
  cases hc : Strings.Contains (rest.take k) sub with
  | false => rfl
  | true =>
    have := Strings.Contains_iff.mpr
      (List.IsInfix.trans (Strings.Contains_iff.mp hc) (List.take_prefix k rest).isInfix)
    rw [h] at this
    cases this

theorem split_without_version {mk : GoString} (hmk : mk ≠ []) {text : GoString} {m : Nat}
    (hidx : Strings.Index text mk = some m)
    (hnov : Strings.Contains (text.drop (m + mk.length)) versiya = false) :
    (Strings.Split ((Strings.Split text mk).getD 1 []) versiya).getD 0 [] =
      match Strings.Index (text.drop (m + mk.length)) mk with
      | none => text.drop (m + mk.length)
      | some k => (text.drop (m + mk.length)).take k := by
  rw [Strings.Split_getD_one hmk hidx, Strings.Split_getD_zero versiya_ne_nil]
  cases Strings.Index (text.drop (m + mk.length)) mk with
  | none =>
    simp only [Option.elim]
    rw [Strings.Contains_eq_false.mp hnov]
  | some k =>
    simp only [Option.elim]
    rw [Strings.Contains_eq_false.mp (contains_take _ _ k hnov)]

/-- C19: the trailing version marker is not required.  For a status text whose first
occurrence of the status marker is at position `m` (the marker is `"онлайн"` whenever the
text contains it, `"оффлайн"` otherwise) and which has no `"версия"` after that occurrence,
the candidate is the whole text from the end of that occurrence up to the next occurrence
of the same marker, or up to the end of the text; an entry with a non-empty host key is
stored, with no error, when this candidate validates and parses. -/
theorem candidate_without_version_marker (text marker : GoString) (m : Nat)
    (hmarker : marker = online ∨
      (marker = offline ∧ Strings.Contains text online = false))
    (hidx : Strings.Index text marker = some m)
    (hnov : Strings.Contains (text.drop (m + marker.length)) versiya = false) :
    candidate text = some
        (match Strings.Index (text.drop (m + marker.length)) marker with
          | none => text.drop (m + marker.length)
          | some k => (text.drop (m + marker.length)).take k) ∧
      ∀ (env : Env V) (acc : GoMap V × Option Error) (host c : GoString) (v : V),
        candidate text = some c → host ≠ [] →
        env.semverIsValid (utf8 "v" ++ c) = true → env.newVersion c = some v →
        eachServer env acc (host, text) = (acc.1.insert host v, acc.2) := by
  constructor
  · rcases hmarker with rfl | ⟨rfl, hon⟩
    · have h := split_without_version online_ne_nil hidx hnov
      unfold candidate
      simp only [Strings.Split_length_le_one online_ne_nil, hidx, h]
      simp
    · have h := split_without_version offline_ne_nil hidx hnov
      unfold candidate
      simp only [Strings.Split_length_le_one online_ne_nil,
        Strings.Split_length_le_one offline_ne_nil, Strings.Contains_eq_false.mp hon, hidx, h]
      simp
  · intro env acc host c v hcand hhost hvalid hparse
    unfold eachServer
    rw [hcand]
    simp [hvalid, hparse, hhost]

/-- Witness of C19: the status text `онлайн1.20.1` yields the candidate `1.20.1`, and the
entry is stored with no error. -/
theorem candidate_without_version_marker_witness :
    candidate (utf8 "онлайн1.20.1") = some (utf8 "1.20.1") ∧
      eachServer (Sample.env ⟨[], []⟩) (∅, none) (utf8 "a.example", utf8 "онлайн1.20.1")
        = ((∅ : GoMap (List Nat)).insert (utf8 "a.example") [1, 20, 1], none) :=
  ⟨((candidate_without_version_marker (V := List Nat) (utf8 "онлайн1.20.1") online 0
      (Or.inl rfl) (by decide) (by decide)).1).trans (by decide),
    (candidate_without_version_marker (utf8 "онлайн1.20.1") online 0
      (Or.inl rfl) (by decide) (by decide)).2
      (Sample.env ⟨[], []⟩) (∅, none) (utf8 "a.example") (utf8 "1.20.1") [1, 20, 1]
      (by decide) (by decide) (by decide) (by decide)⟩


/-! ## The refresh loop -/

theorem exec_append (env : Env V) (es1 es2 : List Event) (l : Loop V) :
    Loop.exec env l (es1 ++ es2) = (Loop.exec env l es1).bind fun l => Loop.exec env l es2 := by
  induction es1 generalizing l with
  | nil => rfl
  | cons e t ih =>
    simp only [List.cons_append, Loop.exec]
    cases Loop.step env l e with
    | none => rfl
    | some l1 => exact ih l1

/-- The fetch steps of the loop of `update` from page `i` on make the page steps of
`update` for the pages `i, ..., last`. -/
theorem exec_pages (env : Env V) (d : Nat) :
    ∀ (i : Nat) (last : Int) (st : State V) (c t k : Bool), last.toNat = i + d → 1 ≤ i →
      Loop.exec env ⟨st, .page i last, c, t, k⟩ (List.replicate (d + 1) .fetch)
        = some ⟨(List.range' i (d + 1)).foldl (updatePage env) st, .select, c, true, k⟩ := by
  induction d with
  | zero =>
    intro i last st c t k hlast hi
    have hnot : ¬ ((i : Int) + 1 ≤ last) := by omega
    simp [Loop.exec, Loop.step, hnot, List.range']
  | succ n ih =>
    intro i last st c t k hlast hi
    have hle : (i : Int) + 1 ≤ last := by omega
    rw [List.replicate_succ, List.range'_succ, List.foldl_cons]
    simp only [Loop.exec, Loop.step, hle, if_true, Option.some_bind]
    exact ih (i + 1) last _ c t k (by omega) (by omega)

/-- The loop model refines `update`: from the start of a cycle, some number of fetch steps
leads to the `select` with the state that `update` returns. -/
theorem exec_cycle (env : Env V) (st : State V) (c t k : Bool) :
    ∃ n, Loop.exec env ⟨st, .root, c, t, k⟩ (List.replicate n .fetch)
      = some ⟨(update env st).2, .select, c, true, k⟩ := by
  rcases hl : lastPage env rootURL st with ⟨⟨last, err⟩, st'⟩
  cases err with
  | some e =>
    refine ⟨1, ?_⟩
    simp [Loop.exec, Loop.step, update, hl]
  | none =>
    by_cases h1 : 1 ≤ last
    · refine ⟨1 + (last.toNat - 1 + 1), ?_⟩
      rw [List.replicate_add, exec_append]
      have hfirst : Loop.exec env ⟨st, .root, c, t, k⟩ (List.replicate 1 .fetch)
          = some ⟨st', .page 1 last, c, t, k⟩ := by
        simp [Loop.exec, Loop.step, hl, h1]
      rw [hfirst, Option.some_bind, exec_pages env (last.toNat - 1) 1 last st' c t k
        (by omega) (Nat.le_refl 1)]
      have hlen : last.toNat - 1 + 1 = last.toNat := by omega
      simp [update, hl, hlen]
    · refine ⟨1, ?_⟩
      have h0 : last.toNat = 0 := by omega
      simp [Loop.exec, Loop.step, update, hl, h1, h0]

theorem step_observe (env : Env V) (l l1 : Loop V)
    (h : Loop.step env l .observe = some l1) :
    l.pc = .select ∧ l.cancelled = true ∧
      l1 = { l with pc := .returned, ticker := false } := by
  simp only [Loop.step] at h
  split at h
  · rename_i hc
    exact ⟨hc.1, hc.2, (Option.some.inj h).symm⟩
  · cases h

theorem step_returned (env : Env V) (l l1 : Loop V) (e : Event)
    (hpc : l.pc = .returned) (ht : l.ticker = false) (h : Loop.step env l e = some l1) :
    e = .cancel ∧ l1.st = l.st ∧ l1.pc = .returned ∧ l1.ticker = false := by
  cases e with
  | cancel =>
    simp only [Loop.step, Option.some.injEq] at h
    subst h
    exact ⟨rfl, rfl, hpc, ht⟩
  | tick => simp [Loop.step, ht] at h
  | fetch => simp [Loop.step, hpc] at h
  | start => simp [Loop.step, hpc] at h
  | observe => simp [Loop.step, hpc] at h

theorem exec_returned (env : Env V) (es : List Event) (l l2 : Loop V)
    (hpc : l.pc = .returned) (ht : l.ticker = false) (h : Loop.exec env l es = some l2) :
    (∀ e ∈ es, e = .cancel) ∧ l2.st = l.st ∧ l2.pc = .returned := by
  induction es generalizing l with
  | nil =>
    simp only [Loop.exec, Option.some.injEq] at h
    subst h
    exact ⟨fun e he => absurd he (List.not_mem_nil e), rfl, hpc⟩
  | cons e t ih =>
    simp only [Loop.exec] at h
    cases hs : Loop.step env l e with
    | none => rw [hs] at h; cases h
    | some l1 =>
      rw [hs, Option.some_bind] at h
      obtain ⟨he, hst, hpc1, ht1⟩ := step_returned env l l1 e hpc ht hs
      obtain ⟨hall, hst2, hpc2⟩ := ih l1 hpc1 ht1 h
      refine ⟨?_, hst2.trans hst, hpc2⟩
      intro x hx
      rcases List.mem_cons.mp hx with rfl | hx'
      · exact he
      · exact hall x hx'

/-- C17 (counterexample): on a site of two listing pages, (1) the signal fires after the
fetch of the pagination root, one request made, and the loop goes on to fetch page 1 and
page 2; (2) the signal fires at the `select` while a tick is pending, three requests made,
and the loop starts a new cycle of three fetches. -/
theorem run_fetches_after_cancel :
    (Loop.exec (Sample.env Sample.twoPages) (Loop.init State.init) [.fetch, .cancel]).map
        (fun l => (l.cancelled, l.st.requests.length)) = some (true, 1) ∧
      (Loop.exec (Sample.env Sample.twoPages) (Loop.init State.init)
          [.fetch, .cancel, .fetch, .fetch]).map
        (fun l => (l.cancelled, l.st.requests)) = some (true, [pageURL 2, pageURL 1, rootURL]) ∧
      (Loop.exec (Sample.env Sample.twoPages) (Loop.init State.init)
          [.fetch, .fetch, .fetch, .tick, .cancel]).map
        (fun l => (l.cancelled, l.pc, l.st.requests.length)) = some (true, .select, 3) ∧
      (Loop.exec (Sample.env Sample.twoPages) (Loop.init State.init)
          [.fetch, .fetch, .fetch, .tick, .cancel, .start, .fetch, .fetch, .fetch]).map
        (fun l => (l.cancelled, l.pc, l.st.requests.length)) = some (true, .select, 6) := by
  refine ⟨by decide, by decide, by decide, by decide⟩

/-- C17 (amended): the cancellation signal is observed only at the `select`, between
cycles.  In every run, once the loop has observed it (the `ctx.Done()` case is taken), the
loop has returned: no fetch, no start of a cycle and no tick occurs ever after, and the
state of the watcher and the log of requests stay as they were.  At the `select` no fetch
is possible, and when the signal has fired and no tick is pending, observing the signal is
the only step the loop can take. -/
theorem run_after_observe (env : Env V) (l l1 l2 : Loop V) (es : List Event)
    (hobs : Loop.step env l .observe = some l1) (hrun : Loop.exec env l1 es = some l2) :
    l.pc = .select ∧ l.cancelled = true ∧
      (∀ e ∈ es, e = .cancel) ∧ l2.st = l.st ∧ l2.pc = .returned ∧
      Loop.step env l .fetch = none ∧
      (l.tick = false → Loop.step env l .start = none) := by
  obtain ⟨hpc, hc, hl1⟩ := step_observe env l l1 hobs
  subst hl1
  obtain ⟨hall, hst, hpc2⟩ := exec_returned env es _ l2 rfl rfl hrun
  refine ⟨hpc, hc, hall, hst, hpc2, ?_, ?_⟩
  · simp [Loop.step, hpc]
  · intro htick
    simp [Loop.step, htick]

/-- Witness of C17: after a full cycle the signal fires, the loop observes it, and a
further firing of the signal changes nothing: three requests were made in all. -/
theorem run_after_observe_witness :
    (Loop.exec (Sample.env Sample.twoPages) (Loop.init State.init)
        [.fetch, .fetch, .fetch, .cancel, .observe, .cancel]).map
      (fun l => (l.pc, l.st.requests.length)) = some (.returned, 3) ∧
      Loop.step (Sample.env Sample.twoPages)
        ⟨(update (Sample.env Sample.twoPages) State.init).2, .select, true, true, false⟩
        .fetch = none :=
  ⟨by decide,
    (run_after_observe (Sample.env Sample.twoPages)
      ⟨(update (Sample.env Sample.twoPages) State.init).2, .select, true, true, false⟩
      ⟨(update (Sample.env Sample.twoPages) State.init).2, .returned, true, false, false⟩
      ⟨(update (Sample.env Sample.twoPages) State.init).2, .returned, true, false, false⟩
      [.cancel] rfl rfl).2.2.2.2.2.1⟩


/-! ## No eviction -/

theorem refreshSpec_lookup_of_not_mem (env : Env V) (r : Nat) (k : GoString)
    (pages : List Nat) (c : GoMap V)
    (h : ∀ i ∈ pages, (parseResponse env (env.respond (r + i) (pageURL i))).2 = none →
      k ∉ (parseResponse env (env.respond (r + i) (pageURL i))).1) :
    (refreshSpec env r pages c).lookup k = c.lookup k := by
  induction pages generalizing c with
  | nil => rfl
  | cons i t ih =>
    unfold refreshSpec
    rw [List.foldl_cons]
    have ht := ih
      (match parseResponse env (env.respond (r + i) (pageURL i)) with
        | (m, none) => upsert c m
        | (_, some _) => c)
      (fun j hj => h j (List.mem_cons_of_mem _ hj))
    unfold refreshSpec at ht
    rw [ht]
    have hi := h i (List.mem_cons_self _ _)
    generalize parseResponse env (env.respond (r + i) (pageURL i)) = p at hi ⊢
    rcases p with ⟨m, err⟩
    cases err with
    | some e => rfl
    | none =>
      dsimp only at hi ⊢
      rw [upsert_lookup, AList.lookup_eq_none.mpr (hi rfl)]
      rfl

theorem update_lookup_frame (env : Env V) (st : State V) (k : GoString)
    (h : ∀ i : Nat, 1 ≤ i → (i : Int) ≤ (lastPage env rootURL st).1.1 →
      (parseResponse env (env.respond (st.requests.length + i) (pageURL i))).2 = none →
      k ∉ (parseResponse env (env.respond (st.requests.length + i) (pageURL i))).1) :
    (update env st).2.watcher.verByServer.lookup k = st.watcher.verByServer.lookup k := by
  have hs := lastPage_state env rootURL st
  rcases hl : lastPage env rootURL st with ⟨⟨n, err⟩, st'⟩
  rw [hl] at hs h
  dsimp only at hs h
  subst hs
  cases err with
  | some e =>
    have hupd : update env st = (some e, { st with requests := rootURL :: st.requests }) := by
      unfold update
      rw [hl]
    rw [hupd]
  | none =>
    have hupd : update env st = (none, (List.range' 1 n.toNat).foldl (updatePage env)
        { st with requests := rootURL :: st.requests }) := by
      unfold update
      rw [hl]
    rw [hupd]
    have hfold := foldl_updatePage_lookup env st.requests.length n.toNat 1
      { st with requests := rootURL :: st.requests } st.watcher.verByServer
      (by simp) (fun _ => rfl) k
    rw [hfold]
    apply refreshSpec_lookup_of_not_mem
    intro i hi
    rw [List.mem_range'_1] at hi
    exact h i hi.1 (by omega)

theorem versionByServer_lookup_frame (env : Env V) (host k : GoString) (st : State V)
    (h : st.watcher.verByServer.lookup host ≠ none ∨
      (parsingServersList env (searchURL host) st).1.2 ≠ none ∨
      k ∉ (parsingServersList env (searchURL host) st).1.1) :
    (VersionByServer env host st).2.watcher.verByServer.lookup k
      = st.watcher.verByServer.lookup k := by
  cases hl : st.watcher.verByServer.lookup host with
  | some v =>
    have hv : VersionByServer env host st = (.ok v, st) := by
      unfold VersionByServer
      rw [hl]
    rw [hv]
  | none =>
    rcases versionByServer_state env host st with h0 | ⟨herr, hm⟩
    · rw [h0]
    · rcases h with h1 | h2 | h3
      · exact absurd hl h1
      · exact absurd herr h2
      · rw [hm]
        exact merge_lookup_of_not_mem env _ _ k h3

/-- C10: no eviction.  For every state and key `k`: a merge of any entry set keeps `k` in
the cache when it was there, and keeps its value when `k` is not among the merged entries;
a whole refresh cycle keeps `k` in the cache, and keeps its value when `k` is in none of
the maps the cycle merges (the maps of the pages `1..lastPage` that parsed without error,
page `i` being request number `r + i`; none when the resolver fails); a lookup, successful
or not, keeps `k` in the cache, and keeps its value when the lookup merges nothing (a hit,
or a failed search) or `k` is not in the search's map; any sequence of refresh cycles and
lookups keeps `k` in the cache. -/
theorem no_eviction (env : Env V) (st : State V) (k : GoString) :
    (∀ m : GoMap V,
        (k ∈ st.watcher.verByServer → k ∈ (merge env m st).watcher.verByServer) ∧
        (k ∉ m →
          (merge env m st).watcher.verByServer.lookup k = st.watcher.verByServer.lookup k)) ∧
      (k ∈ st.watcher.verByServer → k ∈ (update env st).2.watcher.verByServer) ∧
      ((∀ i : Nat, 1 ≤ i → (i : Int) ≤ (lastPage env rootURL st).1.1 →
          (parseResponse env (env.respond (st.requests.length + i) (pageURL i))).2 = none →
          k ∉ (parseResponse env (env.respond (st.requests.length + i) (pageURL i))).1) →
        (update env st).2.watcher.verByServer.lookup k = st.watcher.verByServer.lookup k) ∧
      (∀ host : GoString,
        (k ∈ st.watcher.verByServer →
          k ∈ (VersionByServer env host st).2.watcher.verByServer) ∧
        ((st.watcher.verByServer.lookup host ≠ none ∨
            (parsingServersList env (searchURL host) st).1.2 ≠ none ∨
            k ∉ (parsingServersList env (searchURL host) st).1.1) →
          (VersionByServer env host st).2.watcher.verByServer.lookup k
            = st.watcher.verByServer.lookup k)) ∧
      (∀ ops : List Op,
        k ∈ st.watcher.verByServer → k ∈ (exec env st ops).watcher.verByServer) :=
  ⟨fun m => ⟨merge_mem env m st k, merge_lookup_of_not_mem env m st k⟩,
    fun hk => step_mem env k st .update hk,
    update_lookup_frame env st k,
    fun host => ⟨versionByServer_mem env host k st, versionByServer_lookup_frame env host k st⟩,
    fun ops hk => exec_mem env k ops st hk⟩

/-- Witness of C10: on a site of one page that lists `b.example`, a refresh cycle keeps
the value 9 of `z.example`, although a page the cycle does not visit lists it with 1.0;
a lookup whose search fails after yielding `a.example ↦ 1.20.1` keeps the value 9 of
`a.example`; and a merge keeps the key `play.example.com`. -/
theorem no_eviction_witness :
    (parseResponse (Sample.envSeq Sample.onePage)
        ((Sample.envSeq Sample.onePage).respond 2 (pageURL 2))).1.lookup (utf8 "z.example")
        = some [1, 0] ∧
      (update (Sample.envSeq Sample.onePage) Sample.stale).2.watcher.verByServer.lookup
        (utf8 "z.example") = some [9] ∧
      (update (Sample.envSeq Sample.onePage) Sample.stale).2.watcher.verByServer.lookup
        (utf8 "b.example") = some [1, 8] ∧
      (parsingServersList (Sample.env Sample.mixed) (searchURL (utf8 "q.example"))
        Sample.stale).1.1.lookup (utf8 "a.example") = some [1, 20, 1] ∧
      (VersionByServer (Sample.env Sample.mixed) (utf8 "q.example")
        Sample.stale).2.watcher.verByServer.lookup (utf8 "a.example") = some [9] ∧
      utf8 "play.example.com" ∈
        (merge (Sample.env Sample.other) (parseDocument (Sample.env Sample.other) Sample.other).1
          Sample.cached).watcher.verByServer :=
  ⟨by decide,
    ((no_eviction (Sample.envSeq Sample.onePage) Sample.stale (utf8 "z.example")).2.2.1
      (fun i h1 h2 _ => by
        have hn : (lastPage (Sample.envSeq Sample.onePage) rootURL Sample.stale).1.1 = 1 := by
          decide
        rw [hn] at h2
        have hi : i = 1 := by omega
        subst hi
        decide)).trans (by decide),
    by decide,
    by decide,
    (((no_eviction (Sample.env Sample.mixed) Sample.stale (utf8 "a.example")).2.2.2.1
      (utf8 "q.example")).2 (Or.inr (Or.inl (by decide)))).trans (by decide),
    ((no_eviction (Sample.env Sample.other) Sample.cached (utf8 "play.example.com")).1
      (parseDocument (Sample.env Sample.other) Sample.other).1).1 (by decide)⟩

end PingServer
